import Mathlib

/-!
Verification of the maestro-ng orchestration engine against its
specification.

The Python sources are shallowly embedded: containers and services are
represented by their (unique) names, Python sets by lists considered up to
membership, Python dict insertion-ordered mappings by association lists,
and the Docker daemon interactions of the plays by traces of operations.
Unbounded Python recursion (the transitive `requires`/`needed_for`
properties of `Service`) is embedded with an explicit fuel argument; a
`none` result means the computation did not complete within the given
fuel, and divergence is expressed as returning `none` for every fuel.
-/

/-! ## Generic list / string utilities

Python compares strings lexicographically by code point and `sorted` sorts
ascending with `__lt__`.  Lean's builtin `String` order is not
kernel-reducible, so we use an explicit code-point lexicographic order and
a plain insertion sort.
-/

/-- Lexicographic strict order on character lists by code point,
mirroring Python string comparison. -/
def lexLt : List Char → List Char → Bool
  | [], [] => false
  | [], _ :: _ => true
  | _ :: _, [] => false
  | a :: as, b :: bs =>
    if a.toNat < b.toNat then true
    else if a.toNat = b.toNat then lexLt as bs
    else false

/-- Strict order on strings (Python `a < b`). -/
def strLtB (a b : String) : Bool := lexLt a.data b.data

/-- Non-strict order on strings (total, used for sorting). -/
def strLeB (a b : String) : Bool := !(lexLt b.data a.data)

/-- Insert an element into a sorted list (helper for `sortLe`). -/
def insertLe {α : Type} (le : α → α → Bool) (a : α) : List α → List α
  | [] => [a]
  | b :: bs => if le a b then a :: b :: bs else b :: insertLe le a bs

/-- Insertion sort by a boolean comparison, modelling Python `sorted`. -/
def sortLe {α : Type} (le : α → α → Bool) (l : List α) : List α :=
  l.foldr (insertLe le) []

/-- Keep the first occurrence of every name, dropping later duplicates.
This is how iterating a Python `set` built from hash-and-eq-by-name
elements deduplicates. -/
def dedupFirst {α : Type} (key : α → String) : List α → List String → List α
  | [], _ => []
  | c :: cs, seen =>
    if seen.contains (key c) then dedupFirst key cs seen
    else c :: dedupFirst key cs (key c :: seen)

/-- Python `sorted(set(l))` for a list of names. -/
def sortDedup (l : List String) : List String :=
  sortLe strLeB (dedupFirst id l [])

theorem insertLe_perm {α : Type} (le : α → α → Bool) (a : α) (l : List α) :
    (insertLe le a l).Perm (a :: l) := by
  induction l with
  | nil => simp [insertLe]
  | cons b bs ih =>
    simp only [insertLe]
    split
    · exact List.Perm.refl _
    · exact (List.Perm.cons b ih).trans (List.Perm.swap a b bs)

theorem sortLe_perm {α : Type} (le : α → α → Bool) (l : List α) :
    (sortLe le l).Perm l := by
  induction l with
  | nil => simp [sortLe]
  | cons a as ih =>
    simp only [sortLe, List.foldr_cons]
    exact (insertLe_perm le a _).trans (List.Perm.cons a ih)

theorem mem_sortLe {α : Type} (le : α → α → Bool) (l : List α) (x : α) :
    x ∈ sortLe le l ↔ x ∈ l :=
  (sortLe_perm le l).mem_iff

theorem mem_dedupFirst {α : Type} (key : α → String) :
    ∀ (l : List α) (seen : List String) (x : α),
      x ∈ dedupFirst key l seen → x ∈ l := by
  intro l
  induction l with
  | nil => intro seen x h; simp [dedupFirst] at h
  | cons c cs ih =>
    intro seen x h
    simp only [dedupFirst] at h
    split at h
    · exact List.mem_cons_of_mem _ (ih _ _ h)
    · rcases List.mem_cons.mp h with rfl | h
      · exact List.mem_cons_self _ _
      · exact List.mem_cons_of_mem _ (ih _ _ h)

theorem mem_dedupFirst_of_mem {α : Type} (key : α → String) :
    ∀ (l : List α) (seen : List String) (x : α),
      x ∈ l → ¬ (key x ∈ seen) →
      ∃ y ∈ dedupFirst key l seen, key y = key x := by
  intro l
  induction l with
  | nil => intro seen x h; intro _; simp at h
  | cons c cs ih =>
    intro seen x hx hseen
    rcases List.mem_cons.mp hx with rfl | hx
    · simp only [dedupFirst]
      rw [if_neg (by simpa using hseen)]
      exact ⟨x, List.mem_cons_self _ _, rfl⟩
    · by_cases hc : key c ∈ seen
      · simp only [dedupFirst]
        rw [if_pos (by simpa using hc)]
        exact ih seen x hx hseen
      · simp only [dedupFirst]
        rw [if_neg (by simpa using hc)]
        by_cases hkey : key x = key c
        · exact ⟨c, List.mem_cons_self _ _, hkey.symm⟩
        · have hnot : ¬ (key x ∈ key c :: seen) := by
            simp only [List.mem_cons]
            push_neg
            exact ⟨hkey, hseen⟩
          rcases ih (key c :: seen) x hx hnot with ⟨y, hy1, hy2⟩
          exact ⟨y, List.mem_cons_of_mem _ hy1, hy2⟩

theorem mem_sortDedup (l : List String) (x : String) :
    x ∈ sortDedup l ↔ x ∈ l := by
  constructor
  · intro h
    exact mem_dedupFirst id l [] x ((mem_sortLe _ _ _).mp h)
  · intro h
    rcases mem_dedupFirst_of_mem id l [] x h (by simp) with ⟨y, hy1, hy2⟩
    have : y = x := hy2
    subst this
    exact (mem_sortLe _ _ _).mpr hy1

theorem nodup_dedupFirst {α : Type} (key : α → String) :
    ∀ (l : List α) (seen : List String),
      ((dedupFirst key l seen).map key).Nodup ∧
      ∀ x ∈ dedupFirst key l seen, ¬ (key x ∈ seen) := by
  intro l
  induction l with
  | nil => intro seen; simp [dedupFirst]
  | cons c cs ih =>
    intro seen
    simp only [dedupFirst]
    by_cases hc : key c ∈ seen
    · rw [if_pos (by simpa using hc)]
      exact ih seen
    · rw [if_neg (by simpa using hc)]
      refine ⟨?_, ?_⟩
      · simp only [List.map_cons, List.nodup_cons]
        constructor
        · intro hmem
          rcases List.mem_map.mp hmem with ⟨y, hy1, hy2⟩
          have := (ih (key c :: seen)).2 y hy1
          simp [hy2] at this
        · exact (ih (key c :: seen)).1
      · intro x hx
        rcases List.mem_cons.mp hx with rfl | hx
        · exact hc
        · have := (ih (key c :: seen)).2 x hx
          intro hmem
          exact this (List.mem_cons_of_mem _ hmem)

theorem nodup_sortDedup (l : List String) : (sortDedup l).Nodup := by
  have h1 : ((dedupFirst id l []).map id).Nodup := (nodup_dedupFirst id l []).1
  simp only [List.map_id] at h1
  exact (sortLe_perm strLeB _).nodup_iff.mpr h1

/-- Every nonempty list has an element minimizing an arbitrary measure. -/
theorem exists_min_measure {α : Type} (f : α → Nat) :
    ∀ (l : List α), l ≠ [] → ∃ c ∈ l, ∀ x ∈ l, f c ≤ f x := by
  intro l
  induction l with
  | nil => intro h; exact absurd rfl h
  | cons a as ih =>
    intro _
    rcases as with _ | ⟨b, bs⟩
    · exact ⟨a, by simp, by simp⟩
    · rcases ih (by simp) with ⟨c, hc1, hc2⟩
      by_cases hle : f a ≤ f c
      · refine ⟨a, by simp, ?_⟩
        intro x hx
        rcases List.mem_cons.mp hx with rfl | hx
        · exact Nat.le_refl _
        · exact Nat.le_trans hle (hc2 x hx)
      · refine ⟨c, List.mem_cons_of_mem _ hc1, ?_⟩
        intro x hx
        rcases List.mem_cons.mp hx with rfl | hx
        · exact Nat.le_of_lt (Nat.lt_of_not_le hle)
        · exact hc2 x hx

theorem mem_take_exists {α : Type} :
    ∀ (l : List α) (n : Nat) (a : α), a ∈ l.take n →
      ∃ i, i < n ∧ l.get? i = some a := by
  intro l
  induction l with
  | nil => intro n a h; simp at h
  | cons x xs ih =>
    intro n a h
    rcases n with _ | n
    · simp at h
    · simp only [List.take_succ_cons] at h
      rcases List.mem_cons.mp h with rfl | h
      · exact ⟨0, Nat.succ_pos _, rfl⟩
      · rcases ih n a h with ⟨i, hi1, hi2⟩
        exact ⟨i + 1, Nat.succ_lt_succ hi1, hi2⟩

/-! ## Environment model (src/maestro/entities.py, src/maestro/maestro.py)

Containers and services are identified by their unique names (Python's
`Container.__eq__`, `__hash__` and `__lt__` all key on the name alone, and
the Conductor keys both dictionaries by name).  `svcs` associates each
service name with the service's direct `requires` list, as wired by the
Conductor from the configuration; `ctrs` associates each container name
with the name of its service, in insertion order.  `needed_for` is wired
by the Conductor as the exact inverse of `requires` (maestro.py lines
62-66), so it is derived here as that inverse.
-/

structure Env where
  svcs : List (String × List String)
  ctrs : List (String × String)

/-- Direct dependencies of a service (the `_requires` set of entities.py). -/
def Env.directRequires (e : Env) (s : String) : List String :=
  match e.svcs.find? (fun p => p.1 == s) with
  | some p => p.2
  | none => []

/-- Direct dependents of a service (the `_needed_for` set, the inverse
wiring performed by the Conductor). -/
def Env.directNeededFor (e : Env) (s : String) : List String :=
  (e.svcs.filter (fun p => p.2.contains s)).map Prod.fst

/-- Containers of a service, ordered by instance name
(`Service.containers`, entities.py lines 194-199: sorted dict keys). -/
def Env.serviceContainers (e : Env) (s : String) : List String :=
  sortLe strLeB ((e.ctrs.filter (fun p => p.2 == s)).map Prod.fst)

/-- The service a container belongs to (`Container.service`). -/
def Env.serviceOfC (e : Env) (c : String) : Option String :=
  (e.ctrs.find? (fun p => p.1 == c)).map Prod.snd

/-! ## Transitive service closures (entities.py lines 170-177, 185-192)

The `Service.requires` and `Service.needed_for` properties recurse with no
memoization and no cycle detection:

    dependencies = self._requires
    for dep in dependencies:
        dependencies = dependencies.union(dep.requires)
    return dependencies

(the loop iterates over the original set while rebinding the name), i.e.
`requires s = direct s ∪ ⋃ d ∈ direct s, requires d`.  On a cyclic graph
this recursion never terminates, which the embedding captures with a fuel
argument: `none` means the computation did not finish within the fuel.
-/

/-- Fueled transitive closure of a direct-successors function, following
the recursion of `Service.requires` / `Service.needed_for`. -/
def closureF (direct : String → List String) : Nat → String → Option (List String)
  | 0, _ => none
  | n+1, s =>
    match (direct s).foldr
        (fun d acc =>
          match closureF direct n d, acc with
          | some r, some rs => some (r ++ rs)
          | _, _ => none)
        (some []) with
    | none => none
    | some rest => some (direct s ++ rest)

/-- Fueled `Service.requires` (full transitive dependency set). -/
def requiresF (e : Env) : Nat → String → Option (List String) :=
  closureF e.directRequires

/-- Fueled `Service.needed_for` (full transitive dependent set). -/
def neededForF (e : Env) : Nat → String → Option (List String) :=
  closureF e.directNeededFor

/-! ## The planner (maestro.py lines 88-174) -/

/-- Dependency containers contributed by one container in
`Conductor._gather_dependencies`: the union of `s.containers` over the
transitively required (or dependent) services `s` of the container's
service. -/
def gatherOne (e : Env) (fuel : Nat) (forward : Bool) (c : String) :
    Option (List String) :=
  match e.serviceOfC c with
  | none => none
  | some s =>
    match (if forward then requiresF e fuel s else neededForF e fuel s) with
    | none => none
    | some deps => some (deps.flatMap (fun t => e.serviceContainers t))

/-- Pointwise accumulation of `gatherOne` over a list of containers. -/
def gatherAll (e : Env) (fuel : Nat) (forward : Bool) :
    List String → Option (List String)
  | [] => some []
  | c :: cs =>
    match gatherOne e fuel forward c, gatherAll e fuel forward cs with
    | some d, some ds => some (d ++ ds)
    | _, _ => none

/-- The base set `_gather_dependencies` starts from: the given containers,
or all containers of the environment when the given list is empty
(`containers or self.containers.values()`). -/
def gatherBase (e : Env) (cs : List String) : List String :=
  if cs.isEmpty then e.ctrs.map Prod.fst else cs

/-- Embeds `Conductor._gather_dependencies(containers, forward)`
(maestro.py lines 123-134).  The Python loop iterates over the original
input set (`result` is rebound, not mutated), so the result is a one-shot
union: the input, plus for each input container the containers of the
transitively required (resp. dependent) services of its service. -/
def gatherDependencies (e : Env) (fuel : Nat) (forward : Bool)
    (cs : List String) : Option (List String) :=
  match gatherAll e fuel forward (gatherBase e cs) with
  | none => none
  | some deps => some (gatherBase e cs ++ deps)

/-- One pass of the `_order_dependencies` loop (maestro.py lines 100-106):
walk `pending` in order, appending to `ordered` every container whose
gathered dependency set is a subset of `ordered + [container]` (or whose
dependency set is empty), and collecting the rest into `wait`.  Returns
`none` when a dependency gather diverges. -/
def planPass (e : Env) (fuel : Nat) (forward : Bool) :
    List String → List String → Option (List String × List String)
  | [], ordered => some ([], ordered)
  | c :: cs, ordered =>
    match gatherDependencies e fuel forward [c] with
    | none => none
    | some deps =>
      if !deps.isEmpty && !(deps.all (fun d => (ordered ++ [c]).contains d)) then
        match planPass e fuel forward cs ordered with
        | none => none
        | some (w, o) => some (c :: w, o)
      else
        planPass e fuel forward cs (ordered ++ [c])

/-- Outcome of the planner: an ordered plan, a `DependencyException`
naming the unresolvable wait set (exceptions.py is not part of the
sources; modelled from the spec's error taxonomy), an
`OrchestrationException` for an unknown name in `_to_containers`, or
divergence of the transitive closure computation. -/
inductive PlanResult where
  | ok (ordered : List String)
  | depError (wait : List String)
  | nameError (thing : String)
  | diverged
deriving DecidableEq, Repr

theorem planPass_wait_le (e : Env) (fuel : Nat) (forward : Bool) :
    ∀ (p o w o2 : List String), planPass e fuel forward p o = some (w, o2) →
      w.length ≤ p.length := by
  intro p
  induction p with
  | nil =>
    intro o w o2 h
    simp only [planPass, Option.some.injEq, Prod.mk.injEq] at h
    simp [← h.1]
  | cons c cs ih =>
    intro o w o2 h
    simp only [planPass] at h
    rcases hg : gatherDependencies e fuel forward [c] with _ | deps
    · rw [hg] at h; cases h
    · rw [hg] at h
      dsimp only at h
      split at h
      · rcases hm : planPass e fuel forward cs o with _ | ⟨w1, o1⟩
        · rw [hm] at h; cases h
        · rw [hm] at h
          cases h
          simpa using Nat.succ_le_succ (ih _ _ _ hm)
      · exact Nat.le_trans (ih _ _ _ h) (Nat.le_succ _)

/-- Embeds `Conductor._order_dependencies` (maestro.py lines 88-121).
After a full pass, if the wait list is nonempty and as long as the pending
list, a `DependencyException` naming the wait set is raised; otherwise the
function recurses on the wait list, threading the same `ordered` list
(which in the Python source is the shared, mutated default argument). -/
def orderDependencies (e : Env) (fuel : Nat) (forward : Bool)
    (pending ordered : List String) : PlanResult :=
  match h : planPass e fuel forward pending ordered with
  | none => .diverged
  | some (wait, ordered2) =>
    if wait ≠ [] ∧ pending ≠ [] ∧ wait.length = pending.length then
      .depError wait
    else if hw : wait ≠ [] then
      orderDependencies e fuel forward wait ordered2
    else
      .ok ordered2
termination_by pending.length
decreasing_by
  have hle := planPass_wait_le e fuel forward _ _ _ _ h
  rename_i hnot
  rcases pending with _ | ⟨p, ps⟩
  · simp only [planPass, Option.some.injEq, Prod.mk.injEq] at h
    exact absurd h.1.symm hw
  · push_neg at hnot
    rcases Nat.lt_or_ge wait.length (p :: ps).length with hlt | hge
    · exact hlt
    · exact absurd (Nat.le_antisymm hle hge) (hnot hw (by simp))

/-- Expansion of one name in `Conductor._to_containers` (maestro.py lines
136-149): a container name yields that container, a service name yields
the service's containers, anything else raises an
`OrchestrationException`. -/
def expandThing (e : Env) (t : String) : Option (List String) :=
  if (e.ctrs.map Prod.fst).contains t then some [t]
  else if (e.svcs.map Prod.fst).contains t then some (e.serviceContainers t)
  else none

/-- Embeds `Conductor._to_containers`: expand every name and return
`sorted(set(result))` (dedup by container name, sort by name). -/
def toContainers (e : Env) : List String → Option (List String)
  | [] => some []
  | t :: ts =>
    match expandThing e t, toContainers e ts with
    | some l, some ls => some (l ++ ls)
    | _, _ => none

/-- Embeds `Conductor._ordered_containers` (maestro.py lines 163-174),
with the mutable default argument `ordered` of `_order_dependencies` made
explicit as the `st` parameter: a fresh CPython process starts with
`st = []`, and every append performed by `_order_dependencies` survives
into the next invocation because the default list object is shared. -/
def orderedContainersSt (e : Env) (fuel : Nat) (forward : Bool)
    (things : List String) (st : List String) : PlanResult :=
  match toContainers e things with
  | none => .nameError ""
  | some expanded =>
    match gatherDependencies e fuel forward (sortDedup expanded) with
    | none => .diverged
    | some g => orderDependencies e fuel forward (sortDedup g) st

set_option maxRecDepth 20000 in
example :
    orderedContainersSt
      ⟨[("a", []), ("b", ["a"])], [("a1", "a"), ("b1", "b")]⟩
      2 true ["b1"] [] = .ok ["a1", "b1"] := by
  have h1 : toContainers
      ⟨[("a", []), ("b", ["a"])], [("a1", "a"), ("b1", "b")]⟩ ["b1"] =
      some ["b1"] := by decide
  have h2 : gatherDependencies
      ⟨[("a", []), ("b", ["a"])], [("a1", "a"), ("b1", "b")]⟩ 2 true
      (sortDedup ["b1"]) = some ["b1", "a1"] := by decide
  rw [orderedContainersSt, h1]
  dsimp only
  rw [h2]
  dsimp only
  rw [orderDependencies]
  rw [show planPass ⟨[("a", []), ("b", ["a"])], [("a1", "a"), ("b1", "b")]⟩
      2 true (sortDedup ["b1", "a1"]) [] = some ([], ["a1", "b1"]) from by decide]
  simp

/-! ## Characterization of the closures on acyclic environments

Acyclicity of the service `requires` graph is witnessed by a rank function
that strictly decreases along every direct dependency edge (for a finite
graph this is equivalent to the absence of cycles, and it is exactly what
a topological numbering of the services provides).
-/

/-- Direct service dependency edge: `t` is directly required by `s`. -/
def ReqEdge (e : Env) (s t : String) : Prop := t ∈ e.directRequires s

/-- Transitive service dependency: `t` is in the transitive `requires` of
`s`. -/
def ReqT (e : Env) : String → String → Prop :=
  Relation.TransGen (ReqEdge e)

theorem rank_edge (e : Env) (rank : String → Nat)
    (hr : ∀ p ∈ e.svcs, ∀ d ∈ p.2, rank d < rank p.1) :
    ∀ s d, d ∈ e.directRequires s → rank d < rank s := by
  intro s d hd
  unfold Env.directRequires at hd
  rcases hf : e.svcs.find? (fun p => p.1 == s) with _ | p
  · rw [hf] at hd; simp at hd
  · rw [hf] at hd
    have hmem := List.mem_of_find?_eq_some hf
    have hps : p.1 = s := by simpa using List.find?_some hf
    have := hr p hmem d hd
    rwa [hps] at this

theorem transGen_rank_lt (direct : String → List String) (rank : String → Nat)
    (hr : ∀ s d, d ∈ direct s → rank d < rank s) {s t : String}
    (h : Relation.TransGen (fun a b => b ∈ direct a) s t) : rank t < rank s := by
  induction h with
  | single h => exact hr _ _ h
  | tail _ h ih => exact Nat.lt_trans (hr _ _ h) ih

theorem transGen_head_char (direct : String → List String) (s x : String) :
    Relation.TransGen (fun a b => b ∈ direct a) s x ↔
      x ∈ direct s ∨
        ∃ d ∈ direct s, Relation.TransGen (fun a b => b ∈ direct a) d x := by
  constructor
  · intro h
    rcases Relation.TransGen.head'_iff.mp h with ⟨b, hb, hrt⟩
    rcases Relation.reflTransGen_iff_eq_or_transGen.mp hrt with rfl | ht
    · exact Or.inl hb
    · exact Or.inr ⟨b, hb, ht⟩
  · rintro (h | ⟨d, hd, ht⟩)
    · exact Relation.TransGen.single h
    · exact Relation.TransGen.head hd ht

theorem closureF_char (direct : String → List String) (rank : String → Nat)
    (hr : ∀ s d, d ∈ direct s → rank d < rank s) :
    ∀ (n : Nat) (s : String), rank s < n →
      ∃ r, closureF direct n s = some r ∧
        ∀ x, x ∈ r ↔ Relation.TransGen (fun a b => b ∈ direct a) s x := by
  intro n
  induction n with
  | zero => intro s h; exact absurd h (Nat.not_lt_zero _)
  | succ n ih =>
    intro s hs
    have hds : ∀ d ∈ direct s, rank d < n := by
      intro d hd
      exact Nat.lt_of_lt_of_le (hr s d hd) (Nat.lt_succ_iff.mp hs)
    -- first, the fold over an arbitrary sublist of `direct s`
    have hfold : ∀ (ds : List String), (∀ d ∈ ds, rank d < n) →
        ∃ rs, ds.foldr
            (fun d acc =>
              match closureF direct n d, acc with
              | some r, some rs => some (r ++ rs)
              | _, _ => none)
            (some []) = some rs ∧
          ∀ x, x ∈ rs ↔ ∃ d ∈ ds,
            Relation.TransGen (fun a b => b ∈ direct a) d x := by
      intro ds
      induction ds with
      | nil => intro _; exact ⟨[], rfl, by simp⟩
      | cons d ds ihd =>
        intro hb
        rcases ihd (fun d' hd' => hb d' (List.mem_cons_of_mem _ hd')) with
          ⟨rs, hrs1, hrs2⟩
        rcases ih d (hb d (List.mem_cons_self _ _)) with ⟨r, hr1, hr2⟩
        refine ⟨r ++ rs, ?_, ?_⟩
        · simp only [List.foldr_cons, hrs1, hr1]
        · intro x
          simp only [List.mem_append, hr2 x, hrs2 x, List.mem_cons]
          constructor
          · rintro (h | ⟨d', hd', h⟩)
            · exact ⟨d, Or.inl rfl, h⟩
            · exact ⟨d', Or.inr hd', h⟩
          · rintro ⟨d', rfl | hd', h⟩
            · exact Or.inl h
            · exact Or.inr ⟨d', hd', h⟩
    rcases hfold (direct s) hds with ⟨rest, hrest1, hrest2⟩
    refine ⟨direct s ++ rest, ?_, ?_⟩
    · simp only [closureF, hrest1]
    · intro x
      rw [transGen_head_char]
      simp only [List.mem_append, hrest2 x]

/-! ## Environment wellformedness lemmas -/

theorem find?_assoc_eq {β : Type} :
    ∀ (l : List (String × β)), (l.map Prod.fst).Nodup →
      ∀ (c : String) (s : β), (c, s) ∈ l →
        l.find? (fun p => p.1 == c) = some (c, s) := by
  intro l
  induction l with
  | nil => intro _ c s h; simp at h
  | cons p ps ih =>
    intro hnd c s h
    simp only [List.map_cons, List.nodup_cons] at hnd
    rcases List.mem_cons.mp h with rfl | h
    · simp [List.find?]
    · have hne : p.1 ≠ c := by
        intro heq
        exact hnd.1 (heq ▸ List.mem_map.mpr ⟨(c, s), h, rfl⟩)
      rw [List.find?]
      rw [show (p.1 == c) = false from by simpa using hne]
      exact ih hnd.2 c s h

theorem serviceOfC_eq_of_mem (e : Env)
    (hnd : (e.ctrs.map Prod.fst).Nodup) {c s : String}
    (h : (c, s) ∈ e.ctrs) : e.serviceOfC c = some s := by
  unfold Env.serviceOfC
  rw [find?_assoc_eq e.ctrs hnd c s h]
  rfl

theorem serviceOfC_mem (e : Env) {c s : String}
    (h : e.serviceOfC c = some s) : (c, s) ∈ e.ctrs := by
  unfold Env.serviceOfC at h
  rcases hf : e.ctrs.find? (fun p => p.1 == c) with _ | p
  · rw [hf] at h; cases h
  · rw [hf] at h
    have hmem := List.mem_of_find?_eq_some hf
    have hp1 : p.1 = c := by simpa using List.find?_some hf
    have hp2 : p.2 = s := by simpa using h
    have : p = (c, s) := Prod.ext hp1 hp2
    rwa [this] at hmem

theorem mem_serviceContainers_iff (e : Env) (x t : String) :
    x ∈ e.serviceContainers t ↔ (x, t) ∈ e.ctrs := by
  unfold Env.serviceContainers
  rw [mem_sortLe]
  constructor
  · intro h
    rcases List.mem_map.mp h with ⟨p, hp, rfl⟩
    have := List.mem_filter.mp hp
    have hpt : p.2 = t := by simpa using this.2
    have : p = (p.1, t) := Prod.ext rfl hpt
    rw [← this]
    exact (List.mem_filter.mp hp).1
  · intro h
    exact List.mem_map.mpr ⟨(x, t), List.mem_filter.mpr ⟨h, by simp⟩, rfl⟩

theorem mem_ctrs_names_of_serviceContainers (e : Env) {x t : String}
    (h : x ∈ e.serviceContainers t) : x ∈ e.ctrs.map Prod.fst :=
  List.mem_map.mpr ⟨(x, t), (mem_serviceContainers_iff e x t).mp h, rfl⟩

/-! ## Characterization of the gather functions -/

theorem gatherOne_char (e : Env) (rank : String → Nat)
    (hre : ∀ s d, d ∈ e.directRequires s → rank d < rank s)
    {fuel : Nat} {c s : String} (hcs : e.serviceOfC c = some s)
    (hfuel : rank s < fuel) :
    ∃ d, gatherOne e fuel true c = some d ∧
      ∀ x, x ∈ d ↔ ∃ t, ReqT e s t ∧ x ∈ e.serviceContainers t := by
  rcases closureF_char e.directRequires rank hre fuel s hfuel with ⟨r, hr1, hr2⟩
  refine ⟨r.flatMap (fun t => e.serviceContainers t), ?_, ?_⟩
  · unfold gatherOne
    rw [hcs]
    simp only [if_true]
    unfold requiresF
    rw [hr1]
  · intro x
    rw [List.mem_flatMap]
    constructor
    · rintro ⟨t, ht, hx⟩
      exact ⟨t, (hr2 t).mp ht, hx⟩
    · rintro ⟨t, ht, hx⟩
      exact ⟨t, (hr2 t).mpr ht, hx⟩

theorem gatherAll_char (e : Env) (fuel : Nat) :
    ∀ (cs : List String),
      (∀ c ∈ cs, ∃ d, gatherOne e fuel true c = some d) →
      ∃ ds, gatherAll e fuel true cs = some ds ∧
        ∀ x, x ∈ ds ↔ ∃ c ∈ cs, ∃ d,
          gatherOne e fuel true c = some d ∧ x ∈ d := by
  intro cs
  induction cs with
  | nil => intro _; exact ⟨[], rfl, by simp⟩
  | cons c cs ih =>
    intro hg
    rcases hg c (List.mem_cons_self _ _) with ⟨d, hd⟩
    rcases ih (fun c' hc' => hg c' (List.mem_cons_of_mem _ hc')) with
      ⟨ds, hds1, hds2⟩
    refine ⟨d ++ ds, ?_, ?_⟩
    · simp only [gatherAll, hd, hds1]
    · intro x
      simp only [List.mem_append, hds2 x, List.mem_cons]
      constructor
      · rintro (h | ⟨c', hc', d', hd', h⟩)
        · exact ⟨c, Or.inl rfl, d, hd, h⟩
        · exact ⟨c', Or.inr hc', d', hd', h⟩
      · rintro ⟨c', rfl | hc', d', hd', h⟩
        · rw [hd] at hd'
          cases hd'
          exact Or.inl h
        · exact Or.inr ⟨c', hc', d', hd', h⟩

theorem gatherBase_sub_ctrs (e : Env) {cs : List String}
    (hcs : ∀ c ∈ cs, c ∈ e.ctrs.map Prod.fst) :
    ∀ c ∈ gatherBase e cs, c ∈ e.ctrs.map Prod.fst := by
  intro c hc
  unfold gatherBase at hc
  split at hc
  · exact hc
  · exact hcs c hc

theorem gatherDependencies_char (e : Env) (rank : String → Nat)
    (hre : ∀ s d, d ∈ e.directRequires s → rank d < rank s)
    (hnd : (e.ctrs.map Prod.fst).Nodup)
    {fuel : Nat} (hfuel : ∀ p ∈ e.ctrs, rank p.2 < fuel)
    {cs : List String} (hcs : ∀ c ∈ cs, c ∈ e.ctrs.map Prod.fst) :
    ∃ g, gatherDependencies e fuel true cs = some g ∧
      ∀ x, x ∈ g ↔ x ∈ gatherBase e cs ∨
        ∃ c ∈ gatherBase e cs, ∃ s t, e.serviceOfC c = some s ∧
          ReqT e s t ∧ x ∈ e.serviceContainers t := by
  have hone : ∀ c ∈ gatherBase e cs, ∃ d, gatherOne e fuel true c = some d ∧
      ∀ x, x ∈ d ↔ ∃ s t, e.serviceOfC c = some s ∧ ReqT e s t ∧
        x ∈ e.serviceContainers t := by
    intro c hc
    rcases List.mem_map.mp (gatherBase_sub_ctrs e hcs c hc) with ⟨p, hp, hp1⟩
    have hsvc : e.serviceOfC c = some p.2 :=
      serviceOfC_eq_of_mem e hnd (by rwa [show (c, p.2) = p from Prod.ext hp1.symm rfl])
    rcases gatherOne_char e rank hre hsvc (hfuel p hp) with ⟨d, hd1, hd2⟩
    refine ⟨d, hd1, ?_⟩
    intro x
    rw [hd2 x]
    constructor
    · rintro ⟨t, ht, hx⟩
      exact ⟨p.2, t, hsvc, ht, hx⟩
    · rintro ⟨s, t, hs, ht, hx⟩
      rw [hsvc] at hs
      cases hs
      exact ⟨t, ht, hx⟩
  rcases gatherAll_char e fuel (gatherBase e cs)
      (fun c hc => (hone c hc).imp (fun d hd => hd.1)) with ⟨ds, hds1, hds2⟩
  refine ⟨gatherBase e cs ++ ds, ?_, ?_⟩
  · unfold gatherDependencies
    rw [hds1]
  · intro x
    simp only [List.mem_append, hds2 x]
    constructor
    · rintro (h | ⟨c, hc, d, hd, h⟩)
      · exact Or.inl h
      · rcases hone c hc with ⟨d', hd'1, hd'2⟩
        rw [hd'1] at hd
        cases hd
        exact Or.inr ⟨c, hc, (hd'2 x).mp h⟩
    · rintro (h | ⟨c, hc, hx⟩)
      · exact Or.inl h
      · rcases hone c hc with ⟨d', hd'1, hd'2⟩
        exact Or.inr ⟨c, hc, d', hd'1, (hd'2 x).mpr hx⟩

theorem gatherDependencies_single_char (e : Env) (rank : String → Nat)
    (hre : ∀ s d, d ∈ e.directRequires s → rank d < rank s)
    (hnd : (e.ctrs.map Prod.fst).Nodup)
    {fuel : Nat} (hfuel : ∀ p ∈ e.ctrs, rank p.2 < fuel)
    {c s : String} (hcs : (c, s) ∈ e.ctrs) :
    ∃ d, gatherDependencies e fuel true [c] = some d ∧
      ∀ x, x ∈ d ↔ x = c ∨
        ∃ t, ReqT e s t ∧ x ∈ e.serviceContainers t := by
  have hc1 : ∀ c' ∈ [c], c' ∈ e.ctrs.map Prod.fst := by
    intro c' hc'
    have hcc : c' = c := by simpa using hc'
    rw [hcc]
    exact List.mem_map.mpr ⟨(c, s), hcs, rfl⟩
  rcases gatherDependencies_char e rank hre hnd hfuel hc1 with ⟨g, hg1, hg2⟩
  refine ⟨g, hg1, ?_⟩
  intro x
  rw [hg2 x]
  have hbase : gatherBase e [c] = [c] := rfl
  rw [hbase]
  have hsvc : e.serviceOfC c = some s := serviceOfC_eq_of_mem e hnd hcs
  constructor
  · rintro (h | ⟨c', hc', s', t, hs', ht, hx⟩)
    · exact Or.inl (by simpa using h)
    · rcases List.mem_cons.mp hc' with rfl | hc'
      · rw [hsvc] at hs'
        cases hs'
        exact Or.inr ⟨t, ht, hx⟩
      · simp at hc'
  · rintro (rfl | ⟨t, ht, hx⟩)
    · exact Or.inl (List.mem_cons_self _ _)
    · exact Or.inr ⟨c, List.mem_cons_self _ _, s, t, hsvc, ht, hx⟩

/-! ## Correctness of the ordering pass -/

/-- A list is topologically consistent when every element's gathered
dependency set lies within the prefix up to and including that element. -/
def Topo (e : Env) (fuel : Nat) (l : List String) : Prop :=
  ∀ (i : Nat) (h : i < l.length), ∃ d,
    gatherDependencies e fuel true [l.get ⟨i, h⟩] = some d ∧
    ∀ x ∈ d, x ∈ l.take (i + 1)

theorem topo_nil (e : Env) (fuel : Nat) : Topo e fuel [] := by
  intro i h
  simp at h

theorem topo_append (e : Env) (fuel : Nat) {l : List String} {c : String}
    {d : List String} (hl : Topo e fuel l)
    (hd : gatherDependencies e fuel true [c] = some d)
    (hsub : ∀ x ∈ d, x ∈ l ++ [c]) : Topo e fuel (l ++ [c]) := by
  intro i hi
  have hi' : i < l.length + 1 := by simpa using hi
  rcases Nat.lt_or_ge i l.length with hlt | hge
  · have hgl : (l ++ [c]).get ⟨i, hi⟩ = l.get ⟨i, hlt⟩ := by
      simp [List.getElem_append_left hlt]
    rcases hl i hlt with ⟨di, hdi1, hdi2⟩
    refine ⟨di, by rwa [hgl], ?_⟩
    intro x hx
    rw [List.take_append_of_le_length (by omega)]
    exact hdi2 x hx
  · have hieq : i = l.length := by omega
    subst hieq
    have hgc : (l ++ [c]).get ⟨l.length, hi⟩ = c := by
      simp
    refine ⟨d, by rwa [hgc], ?_⟩
    intro x hx
    have hlen : (l ++ [c]).length = l.length + 1 := by simp
    rw [← hlen, List.take_length]
    exact hsub x hx

theorem planPass_spec (e : Env) (fuel : Nat) :
    ∀ (pending ordered : List String),
      (∀ c ∈ pending, ∃ d, gatherDependencies e fuel true [c] = some d) →
      Topo e fuel ordered →
      ∃ w app,
        planPass e fuel true pending ordered = some (w, ordered ++ app) ∧
        (app ++ w).Perm pending ∧
        Topo e fuel (ordered ++ app) ∧
        (∀ x ∈ w, x ∈ pending) ∧
        ((∃ c ∈ pending, ∃ d, gatherDependencies e fuel true [c] = some d ∧
            ∀ x ∈ d, x ∈ ordered ++ [c]) → app ≠ []) := by
  intro pending
  induction pending with
  | nil =>
    intro ordered hg htopo
    refine ⟨[], [], by simp [planPass], by simp, by simpa using htopo,
      by simp, ?_⟩
    rintro ⟨c, hc, _⟩
    simp at hc
  | cons c cs ih =>
    intro ordered hg htopo
    rcases hg c (List.mem_cons_self _ _) with ⟨dc, hdc⟩
    by_cases hcond :
        (!dc.isEmpty && !(dc.all (fun d => (ordered ++ [c]).contains d))) = true
    · -- the container cannot be ordered yet and goes to the wait list
      rcases ih ordered (fun c' hc' => hg c' (List.mem_cons_of_mem _ hc'))
          htopo with ⟨w, app, hpp, hperm, htopo2, hwsub, hprog⟩
      refine ⟨c :: w, app, ?_, ?_, htopo2, ?_, ?_⟩
      · simp only [planPass, hdc]
        rw [if_pos hcond, hpp]
      · exact List.perm_middle.trans (hperm.cons c)
      · intro x hx
        rcases List.mem_cons.mp hx with rfl | hx
        · exact List.mem_cons_self _ _
        · exact List.mem_cons_of_mem _ (hwsub x hx)
      · rintro ⟨c0, hc0, d0, hd0, hsub0⟩
        rcases List.mem_cons.mp hc0 with rfl | hc0
        · rw [hdc] at hd0
          cases hd0
          exfalso
          have hAll : dc.all (fun d => (ordered ++ [c0]).contains d) = true := by
            rw [List.all_eq_true]
            intro x hx
            simpa using hsub0 x hx
          have h2 := ((Bool.and_eq_true _ _).mp hcond).2
          rw [hAll] at h2
          simp at h2
        · exact hprog ⟨c0, hc0, d0, hd0, hsub0⟩
    · -- the container is appended to the ordered list
      have hsub : ∀ x ∈ dc, x ∈ ordered ++ [c] := by
        by_cases hemp : dc.isEmpty
        · intro x hx
          rw [List.isEmpty_iff] at hemp
          subst hemp
          simp at hx
        · have hall : dc.all (fun d => (ordered ++ [c]).contains d) = true := by
            by_contra hna
            apply hcond
            simp only [Bool.and_eq_true, Bool.not_eq_true']
            exact ⟨by simpa using hemp, by simpa using hna⟩
          intro x hx
          simpa using List.all_eq_true.mp hall x hx
      have htopo' : Topo e fuel (ordered ++ [c]) :=
        topo_append e fuel htopo hdc hsub
      rcases ih (ordered ++ [c]) (fun c' hc' => hg c' (List.mem_cons_of_mem _ hc'))
          htopo' with ⟨w, app, hpp, hperm, htopo2, hwsub, hprog⟩
      have hassoc : (ordered ++ [c]) ++ app = ordered ++ (c :: app) := by
        rw [List.append_assoc]
        rfl
      refine ⟨w, c :: app, ?_, ?_, ?_, ?_, ?_⟩
      · simp only [planPass, hdc]
        rw [if_neg hcond, hpp, hassoc]
      · exact hperm.cons c
      · rwa [hassoc] at htopo2
      · intro x hx
        exact List.mem_cons_of_mem _ (hwsub x hx)
      · intro _
        simp

theorem orderDependencies_nil (e : Env) (fuel : Nat) (forward : Bool)
    (ordered : List String) :
    orderDependencies e fuel forward [] ordered = .ok ordered := by
  rw [orderDependencies]
  simp [planPass]

theorem orderDependencies_ok (e : Env) (rank : String → Nat) (fuel : Nat)
    (hr : ∀ p ∈ e.svcs, ∀ d ∈ p.2, rank d < rank p.1)
    (hnd : (e.ctrs.map Prod.fst).Nodup)
    (hfuel : ∀ p ∈ e.ctrs, rank p.2 < fuel) :
    ∀ (N : Nat) (pending ordered : List String), pending.length ≤ N →
      (∀ c ∈ pending, c ∈ e.ctrs.map Prod.fst) →
      (∀ c ∈ pending, ∀ d, gatherDependencies e fuel true [c] = some d →
        ∀ x ∈ d, x ∈ ordered ++ pending) →
      Topo e fuel ordered →
      ∃ app, orderDependencies e fuel true pending ordered =
          PlanResult.ok (ordered ++ app) ∧
        app.Perm pending ∧ Topo e fuel (ordered ++ app) := by
  have hre := rank_edge e rank hr
  intro N
  induction N with
  | zero =>
    intro pending ordered hlen hp hc htopo
    have hpe : pending = [] := List.eq_nil_of_length_eq_zero
      (Nat.le_zero.mp hlen)
    subst hpe
    exact ⟨[], by rw [orderDependencies_nil]; simp, by simp,
      by simpa using htopo⟩
  | succ N ih =>
    intro pending ordered hlen hp hc htopo
    by_cases hpe : pending = []
    · subst hpe
      exact ⟨[], by rw [orderDependencies_nil]; simp, by simp,
        by simpa using htopo⟩
    have hmempair : ∀ c ∈ pending, ∃ s, (c, s) ∈ e.ctrs := by
      intro c hcin
      rcases List.mem_map.mp (hp c hcin) with ⟨p, hpin, hp1⟩
      refine ⟨p.2, ?_⟩
      rw [show (c, p.2) = p from by rw [← hp1]]
      exact hpin
    have hg : ∀ c ∈ pending, ∃ d, gatherDependencies e fuel true [c] = some d := by
      intro c hcin
      rcases hmempair c hcin with ⟨s, hs⟩
      rcases gatherDependencies_single_char e rank hre hnd hfuel hs with ⟨d, hd, -⟩
      exact ⟨d, hd⟩
    rcases planPass_spec e fuel pending ordered hg htopo with
      ⟨w, app1, hpp, hperm, htopo1, hwsub, hprog⟩
    have happ1 : app1 ≠ [] := by
      apply hprog
      rcases exists_min_measure (fun c => rank ((e.serviceOfC c).getD ""))
          pending hpe with ⟨cm, hcm, hmin⟩
      rcases hmempair cm hcm with ⟨sm, hsm⟩
      have hsvcm : e.serviceOfC cm = some sm := serviceOfC_eq_of_mem e hnd hsm
      rcases gatherDependencies_single_char e rank hre hnd hfuel hsm with
        ⟨dm, hdm, hdmc⟩
      refine ⟨cm, hcm, dm, hdm, ?_⟩
      intro x hx
      rcases (hdmc x).mp hx with rfl | ⟨t, ht, hxt⟩
      · exact List.mem_append.mpr (Or.inr (List.mem_cons_self _ _))
      · have hxc : (x, t) ∈ e.ctrs := (mem_serviceContainers_iff e x t).mp hxt
        have hsvx : e.serviceOfC x = some t := serviceOfC_eq_of_mem e hnd hxc
        have hrt : rank t < rank sm :=
          transGen_rank_lt e.directRequires rank hre ht
        have hxp : x ∉ pending := by
          intro hxpend
          have hle := hmin x hxpend
          rw [hsvx, hsvcm] at hle
          simp only [Option.getD_some] at hle
          omega
        have hxop := hc cm hcm dm hdm x hx
        rcases List.mem_append.mp hxop with h | h
        · exact List.mem_append.mpr (Or.inl h)
        · exact absurd h hxp
    have hlen2 : w.length < pending.length := by
      have hpl := hperm.length_eq
      rw [List.length_append] at hpl
      rcases app1 with _ | ⟨a, app1'⟩
      · exact absurd rfl happ1
      · simp only [List.length_cons] at hpl
        omega
    by_cases hwe : w = []
    · subst hwe
      refine ⟨app1, ?_, by simpa using hperm, htopo1⟩
      rw [orderDependencies]
      split
      · rename_i heq
        rw [hpp] at heq
        cases heq
      · rename_i wait ordered2 heq
        rw [hpp] at heq
        simp only [Option.some.injEq, Prod.mk.injEq] at heq
        obtain ⟨rfl, rfl⟩ := heq
        rw [if_neg (by simp), dif_neg (by simp)]
    · have hp2 : ∀ c ∈ w, c ∈ e.ctrs.map Prod.fst :=
        fun c hcw => hp c (hwsub c hcw)
      have hc2 : ∀ c ∈ w, ∀ d, gatherDependencies e fuel true [c] = some d →
          ∀ x ∈ d, x ∈ (ordered ++ app1) ++ w := by
        intro c hcw d hd x hx
        have hxop := hc c (hwsub c hcw) d hd x hx
        rcases List.mem_append.mp hxop with h | h
        · exact List.mem_append.mpr (Or.inl (List.mem_append.mpr (Or.inl h)))
        · have hx2 : x ∈ app1 ++ w := hperm.symm.mem_iff.mp h
          rcases List.mem_append.mp hx2 with h' | h'
          · exact List.mem_append.mpr (Or.inl (List.mem_append.mpr (Or.inr h')))
          · exact List.mem_append.mpr (Or.inr h')
      have hlen3 : w.length ≤ N := by omega
      rcases ih w (ordered ++ app1) hlen3 hp2 hc2 htopo1 with
        ⟨app2, hres, hperm2, htopo2⟩
      refine ⟨app1 ++ app2, ?_, ?_, ?_⟩
      · rw [orderDependencies]
        split
        · rename_i heq
          rw [hpp] at heq
          cases heq
        · rename_i wait ordered2 heq
          rw [hpp] at heq
          simp only [Option.some.injEq, Prod.mk.injEq] at heq
          obtain ⟨rfl, rfl⟩ := heq
          rw [if_neg (by rintro ⟨-, -, hleq⟩; omega), dif_pos hwe]
          rw [hres, List.append_assoc]
      · exact (List.Perm.append_left app1 hperm2).trans hperm
      · rwa [← List.append_assoc]

theorem toContainers_of_containers (e : Env) :
    ∀ (things : List String),
      (∀ t ∈ things, t ∈ e.ctrs.map Prod.fst) →
      toContainers e things = some things := by
  intro things
  induction things with
  | nil => intro _; rfl
  | cons t ts ih =>
    intro h
    have ht : (e.ctrs.map Prod.fst).contains t = true := by
      simpa using h t (List.mem_cons_self _ _)
    simp only [toContainers, expandThing, ht, if_true,
      ih (fun t' ht' => h t' (List.mem_cons_of_mem _ ht'))]
    rfl

theorem gather_subset_ctrs (e : Env) (rank : String → Nat)
    (hre : ∀ s d, d ∈ e.directRequires s → rank d < rank s)
    (hnd : (e.ctrs.map Prod.fst).Nodup)
    {fuel : Nat} (hfuel : ∀ p ∈ e.ctrs, rank p.2 < fuel)
    {cs : List String} (hcs : ∀ c ∈ cs, c ∈ e.ctrs.map Prod.fst)
    {g : List String} (hg : gatherDependencies e fuel true cs = some g) :
    ∀ x ∈ g, x ∈ e.ctrs.map Prod.fst := by
  rcases gatherDependencies_char e rank hre hnd hfuel hcs with ⟨g', hg', hchar⟩
  rw [hg] at hg'
  cases hg'
  intro x hx
  rcases (hchar x).mp hx with h | ⟨c, hc, s, t, hs, ht, hxt⟩
  · exact gatherBase_sub_ctrs e hcs x h
  · exact mem_ctrs_names_of_serviceContainers e hxt

theorem sortDedup_nil : sortDedup [] = [] := rfl

theorem gatherBase_mem_congr (e : Env) (S : List String) (x : String) :
    x ∈ gatherBase e (sortDedup S) ↔ x ∈ gatherBase e S := by
  rcases S with _ | ⟨c, S'⟩
  · rw [sortDedup_nil]
  · have hne : sortDedup (c :: S') ≠ [] :=
      List.ne_nil_of_mem ((mem_sortDedup _ _).mpr (List.mem_cons_self _ _))
    unfold gatherBase
    rw [if_neg (by simpa using hne), if_neg (by simp)]
    exact mem_sortDedup _ _

/-- C1: on an acyclic environment (witnessed by a service rank strictly
decreasing along every direct `requires` edge), planning any set of
containers in the forward direction succeeds; the plan is a permutation of
the `gather` closure of the set, and every container of a transitively
required service appears in the plan before its dependents. -/
theorem plan_forward_correct (e : Env) (rank : String → Nat) (fuel : Nat)
    (S : List String)
    (hr : ∀ p ∈ e.svcs, ∀ d ∈ p.2, rank d < rank p.1)
    (hnd : (e.ctrs.map Prod.fst).Nodup)
    (hfuel : ∀ p ∈ e.ctrs, rank p.2 < fuel)
    (hS : ∀ c ∈ S, c ∈ e.ctrs.map Prod.fst) :
    ∃ plan g,
      orderedContainersSt e fuel true S [] = PlanResult.ok plan ∧
      gatherDependencies e fuel true S = some g ∧
      plan.Nodup ∧ (∀ x, x ∈ plan ↔ x ∈ g) ∧
      ∀ (a b sa sb : String), e.serviceOfC a = some sa →
        e.serviceOfC b = some sb → ReqT e sb sa →
        a ∈ plan → b ∈ plan →
        ∃ i j, i < j ∧ plan.get? i = some a ∧ plan.get? j = some b := by
  have hre := rank_edge e rank hr
  have htoC := toContainers_of_containers e S hS
  have hSd : ∀ c ∈ sortDedup S, c ∈ e.ctrs.map Prod.fst :=
    fun c hc => hS c ((mem_sortDedup _ _).mp hc)
  rcases gatherDependencies_char e rank hre hnd hfuel hSd with ⟨gInt, hgInt, hgIntc⟩
  have hgmem : ∀ x ∈ gInt, x ∈ e.ctrs.map Prod.fst :=
    gather_subset_ctrs e rank hre hnd hfuel hSd hgInt
  set pending := sortDedup gInt with hpending
  have hpmem : ∀ c ∈ pending, c ∈ e.ctrs.map Prod.fst :=
    fun c hc => hgmem c ((mem_sortDedup _ _).mp hc)
  have hclosed : ∀ c ∈ pending, ∀ d,
      gatherDependencies e fuel true [c] = some d →
      ∀ x ∈ d, x ∈ ([] : List String) ++ pending := by
    intro c hcp d hd x hx
    have hcg : c ∈ gInt := (mem_sortDedup _ _).mp hcp
    rcases List.mem_map.mp (hgmem c hcg) with ⟨pc, hpc, hpc1⟩
    have hcpair : (c, pc.2) ∈ e.ctrs := by
      rw [show (c, pc.2) = pc from by rw [← hpc1]]
      exact hpc
    rcases gatherDependencies_single_char e rank hre hnd hfuel hcpair with
      ⟨d', hd', hd'c⟩
    rw [hd] at hd'
    cases hd'
    have hxg : x ∈ gInt := by
      rcases (hd'c x).mp hx with rfl | ⟨t, ht, hxt⟩
      · exact hcg
      · rcases (hgIntc c).mp hcg with hcb | ⟨c0, hc0, s0, t0, hs0, ht0, hct0⟩
        · exact (hgIntc x).mpr (Or.inr ⟨c, hcb, pc.2,
            t, serviceOfC_eq_of_mem e hnd hcpair, ht, hxt⟩)
        · have hct0' : (c, t0) ∈ e.ctrs :=
            (mem_serviceContainers_iff e c t0).mp hct0
          have : e.serviceOfC c = some t0 := serviceOfC_eq_of_mem e hnd hct0'
          have hteq : t0 = pc.2 := by
            rw [serviceOfC_eq_of_mem e hnd hcpair] at this
            exact ((Option.some.injEq _ _).mp this).symm
          exact (hgIntc x).mpr (Or.inr ⟨c0, hc0, s0, t,
            hs0, Relation.TransGen.trans ht0 (hteq ▸ ht), hxt⟩)
    simp only [List.nil_append]
    exact (mem_sortDedup _ _).mpr hxg
  rcases orderDependencies_ok e rank fuel hr hnd hfuel pending.length
      pending [] (Nat.le_refl _) hpmem hclosed (topo_nil e fuel) with
    ⟨app, hres, happerm, htopo⟩
  have hplanmemg : ∀ x, x ∈ app ↔ x ∈ gInt := by
    intro x
    rw [happerm.mem_iff, hpending, mem_sortDedup]
  -- the gather of the raw set S, as in the claim
  rcases gatherDependencies_char e rank hre hnd hfuel hS with ⟨gS, hgS, hgSc⟩
  have hgg : ∀ x, x ∈ gInt ↔ x ∈ gS := by
    intro x
    rw [hgIntc x, hgSc x]
    constructor
    · rintro (h | ⟨c, hc, rest⟩)
      · exact Or.inl ((gatherBase_mem_congr e S x).mp h)
      · exact Or.inr ⟨c, (gatherBase_mem_congr e S c).mp hc, rest⟩
    · rintro (h | ⟨c, hc, rest⟩)
      · exact Or.inl ((gatherBase_mem_congr e S x).mpr h)
      · exact Or.inr ⟨c, (gatherBase_mem_congr e S c).mpr hc, rest⟩
  refine ⟨app, gS, ?_, hgS, ?_, ?_, ?_⟩
  · unfold orderedContainersSt
    rw [htoC]
    dsimp only
    rw [hgInt]
    dsimp only
    simpa using hres
  · exact happerm.nodup_iff.mpr (nodup_sortDedup _)
  · intro x
    rw [hplanmemg x, hgg x]
  · intro a b sa sb hsa hsb hreq ha hb
    have htopo' : Topo e fuel app := by simpa using htopo
    rcases List.mem_iff_get.mp hb with ⟨⟨j, hj⟩, hgetb⟩
    rcases htopo' j hj with ⟨d, hd, hdsub⟩
    rw [hgetb] at hd
    rcases gatherDependencies_single_char e rank hre hnd hfuel
        (serviceOfC_mem e hsb) with ⟨d', hd', hd'c⟩
    rw [hd] at hd'
    cases hd'
    have had : a ∈ d := (hd'c a).mpr (Or.inr ⟨sa, hreq,
      (mem_serviceContainers_iff e a sa).mpr (serviceOfC_mem e hsa)⟩)
    have hane : a ≠ b := by
      intro heq
      rw [heq, hsb] at hsa
      have : sa = sb := (Option.some.injEq _ _).mp hsa.symm
      have hlt := transGen_rank_lt e.directRequires rank hre hreq
      rw [this] at hlt
      exact Nat.lt_irrefl _ hlt
    have hatake : a ∈ app.take (j + 1) := hdsub a had
    rw [List.take_succ] at hatake
    rcases List.mem_append.mp hatake with h | h
    · rcases mem_take_exists app j a h with ⟨i, hi, hgi⟩
      refine ⟨i, j, hi, hgi, ?_⟩
      rw [List.get?_eq_get hj, hgetb]
    · exfalso
      apply hane
      have : app[j]? = some b := by
        rw [List.getElem?_eq_getElem hj]
        simpa using hgetb
      rw [this] at h
      simpa using h

/-! ## Claim C1 witness environment -/

/-- Two services, `b` requiring `a`, one container each. -/
def envAB : Env := ⟨[("a", []), ("b", ["a"])], [("a1", "a"), ("b1", "b")]⟩

/-- Rank witnessing acyclicity of `envAB`. -/
def rankAB : String → Nat := fun s => if s = "b" then 1 else 0

theorem plan_forward_correct_witness :
    (∀ p ∈ envAB.svcs, ∀ d ∈ p.2, rankAB d < rankAB p.1) ∧
    (envAB.ctrs.map Prod.fst).Nodup ∧
    (∀ p ∈ envAB.ctrs, rankAB p.2 < 2) ∧
    (∀ c ∈ ["b1"], c ∈ envAB.ctrs.map Prod.fst) ∧
    (∃ plan g,
      orderedContainersSt envAB 2 true ["b1"] [] = PlanResult.ok plan ∧
      gatherDependencies envAB 2 true ["b1"] = some g ∧
      plan.Nodup ∧ (∀ x, x ∈ plan ↔ x ∈ g) ∧
      ∀ (a b sa sb : String), envAB.serviceOfC a = some sa →
        envAB.serviceOfC b = some sb → ReqT envAB sb sa →
        a ∈ plan → b ∈ plan →
        ∃ i j, i < j ∧ plan.get? i = some a ∧ plan.get? j = some b) :=
  ⟨by decide, by decide, by decide, by decide,
    plan_forward_correct envAB rankAB 2 ["b1"]
      (by decide) (by decide) (by decide) (by decide)⟩

/-! ## Claim C2: cyclic environments -/

/-- Two services requiring each other: the canonical dependency cycle. -/
def envCycle : Env := ⟨[("a", ["b"]), ("b", ["a"])], [("a1", "a"), ("b1", "b")]⟩

/-- C2 (code behaviour on the failing input): on a cyclic environment the
transitive `requires` computation never terminates, for any amount of
fuel, so planning reports divergence rather than ever reaching the
`DependencyException` branch of `_order_dependencies` (in CPython this
manifests as an uncaught `RecursionError` inside `Service.requires`
before `_order_dependencies` can inspect its wait list). -/
theorem cyclic_requires_diverges :
    ∀ fuel : Nat,
      requiresF envCycle fuel "a" = none ∧
      requiresF envCycle fuel "b" = none ∧
      orderedContainersSt envCycle fuel true ["a1"] [] = PlanResult.diverged := by
  have hda : envCycle.directRequires "a" = ["b"] := by decide
  have hdb : envCycle.directRequires "b" = ["a"] := by decide
  have key : ∀ n, requiresF envCycle n "a" = none ∧
      requiresF envCycle n "b" = none := by
    intro n
    induction n with
    | zero => exact ⟨rfl, rfl⟩
    | succ n ih =>
      constructor
      · show closureF envCycle.directRequires (n + 1) "a" = none
        simp only [closureF, hda, List.foldr_cons, List.foldr_nil]
        rw [show closureF envCycle.directRequires n "b" = none from ih.2]
      · show closureF envCycle.directRequires (n + 1) "b" = none
        simp only [closureF, hdb, List.foldr_cons, List.foldr_nil]
        rw [show closureF envCycle.directRequires n "a" = none from ih.1]
  intro fuel
  refine ⟨(key fuel).1, (key fuel).2, ?_⟩
  have htoc : toContainers envCycle ["a1"] = some ["a1"] := by decide
  have hsd : sortDedup ["a1"] = ["a1"] := by decide
  unfold orderedContainersSt
  rw [htoc]
  dsimp only
  rw [hsd]
  have hga : gatherDependencies envCycle fuel true ["a1"] = none := by
    unfold gatherDependencies
    rw [show gatherBase envCycle ["a1"] = ["a1"] from rfl]
    have h1 : gatherOne envCycle fuel true "a1" = none := by
      unfold gatherOne
      rw [show envCycle.serviceOfC "a1" = some "a" from by decide]
      dsimp only
      rw [if_pos rfl, (key fuel).1]
    simp only [gatherAll, h1]
  rw [hga]

/-! ## Claim C9: the shared mutable default `ordered` argument -/

theorem planPass_extends (e : Env) (fuel : Nat) (forward : Bool) :
    ∀ (pending ordered w o2 : List String),
      planPass e fuel forward pending ordered = some (w, o2) →
      ∃ app, o2 = ordered ++ app := by
  intro pending
  induction pending with
  | nil =>
    intro ordered w o2 h
    simp only [planPass, Option.some.injEq, Prod.mk.injEq] at h
    exact ⟨[], by simp [← h.2]⟩
  | cons c cs ih =>
    intro ordered w o2 h
    simp only [planPass] at h
    rcases hg : gatherDependencies e fuel forward [c] with _ | deps
    · rw [hg] at h; cases h
    · rw [hg] at h
      dsimp only at h
      split at h
      · rcases hm : planPass e fuel forward cs ordered with _ | ⟨w1, o1⟩
        · rw [hm] at h; cases h
        · rw [hm] at h
          simp only [Option.some.injEq, Prod.mk.injEq] at h
          rcases ih ordered w1 o1 hm with ⟨app, happ⟩
          exact ⟨app, by rw [← h.2, happ]⟩
      · rcases ih (ordered ++ [c]) w o2 h with ⟨app, happ⟩
        exact ⟨[c] ++ app, by rw [happ, List.append_assoc]⟩

theorem orderDependencies_extends (e : Env) (fuel : Nat) (forward : Bool) :
    ∀ (N : Nat) (pending ordered out : List String), pending.length ≤ N →
      orderDependencies e fuel forward pending ordered = PlanResult.ok out →
      ∃ app, out = ordered ++ app := by
  intro N
  induction N with
  | zero =>
    intro pending ordered out hlen h
    have hpe : pending = [] := List.eq_nil_of_length_eq_zero (Nat.le_zero.mp hlen)
    subst hpe
    rw [orderDependencies_nil] at h
    cases h
    exact ⟨[], by simp⟩
  | succ N ih =>
    intro pending ordered out hlen h
    rw [orderDependencies] at h
    split at h
    · cases h
    · rename_i wait ordered2 heq
      split at h
      · cases h
      · have hwl := planPass_wait_le e fuel forward _ _ _ _ heq
        rcases planPass_extends e fuel forward _ _ _ _ heq with ⟨app1, happ1⟩
        split at h
        · rename_i hcond hw
          -- the recursive call
          have hwlt : wait.length < pending.length := by
            push_neg at hcond
            rcases Nat.lt_or_ge wait.length pending.length with hlt | hge
            · exact hlt
            · exfalso
              have hpne : pending ≠ [] := by
                intro hpe
                subst hpe
                simp only [planPass, Option.some.injEq, Prod.mk.injEq] at heq
                exact hw heq.1.symm
              exact hw (hcond hw hpne |> absurd (Nat.le_antisymm hwl hge) |> False.elim)
          rcases ih wait ordered2 out (by omega) h with ⟨app2, happ2⟩
          exact ⟨app1 ++ app2, by rw [happ2, happ1, List.append_assoc]⟩
        · cases h
          exact ⟨app1, happ1⟩

/-- C9: `_order_dependencies` only ever appends to its `ordered` list,
which in the Python source is the function's mutable default argument,
shared across invocations of the planner.  Starting from the empty state
of a fresh process, a first successful planner invocation leaves the
shared list equal to its result; a second invocation (with no explicit
`ordered` argument) then returns a list that has the first result as a
prefix. -/
theorem planner_state_prefix (e : Env) (fuel : Nat) (forward : Bool)
    (things1 things2 out1 out2 : List String)
    (h1 : orderedContainersSt e fuel forward things1 [] = PlanResult.ok out1)
    (h2 : orderedContainersSt e fuel forward things2 out1 = PlanResult.ok out2) :
    out1 <+: out2 := by
  clear h1
  unfold orderedContainersSt at h2
  rcases htc : toContainers e things2 with _ | exp
  · rw [htc] at h2; cases h2
  · rw [htc] at h2
    dsimp only at h2
    rcases hg : gatherDependencies e fuel forward (sortDedup exp) with _ | g
    · rw [hg] at h2; cases h2
    · rw [hg] at h2
      dsimp only at h2
      rcases orderDependencies_extends e fuel forward (sortDedup g).length
          (sortDedup g) out1 out2 (Nat.le_refl _) h2 with ⟨app, happ⟩
      exact ⟨app, happ.symm⟩

/-- Single-service environment for the C9 witness. -/
def envA : Env := ⟨[("a", [])], [("a1", "a")]⟩

theorem planner_state_prefix_witness :
    orderedContainersSt envA 1 true ["a1"] [] = PlanResult.ok ["a1"] ∧
    orderedContainersSt envA 1 true ["a1"] ["a1"] = PlanResult.ok ["a1", "a1"] ∧
    ["a1"] <+: ["a1", "a1"] := by
  have htoc : toContainers envA ["a1"] = some ["a1"] := by decide
  have hsd : sortDedup ["a1"] = ["a1"] := by decide
  have hga : gatherDependencies envA 1 true ["a1"] = some ["a1"] := by decide
  have h1 : orderedContainersSt envA 1 true ["a1"] [] = PlanResult.ok ["a1"] := by
    unfold orderedContainersSt
    rw [htoc]
    dsimp only
    rw [hsd, hga]
    dsimp only
    rw [hsd]
    rw [orderDependencies]
    rw [show planPass envA 1 true ["a1"] [] = some ([], ["a1"]) from by decide]
    simp
  have h2 : orderedContainersSt envA 1 true ["a1"] ["a1"] =
      PlanResult.ok ["a1", "a1"] := by
    unfold orderedContainersSt
    rw [htoc]
    dsimp only
    rw [hsd, hga]
    dsimp only
    rw [hsd]
    rw [orderDependencies]
    rw [show planPass envA 1 true ["a1"] ["a1"] = some ([], ["a1", "a1"])
        from by decide]
    simp
  exact ⟨h1, h2, planner_state_prefix envA 1 true ["a1"] ["a1"] _ _ h1 h2⟩

/-! ## Port specification parsing (entities.py lines 387-460, claim C5)

Python `str.split` with a one-character separator and `int()` on digit
strings are embedded explicitly so that everything reduces in the kernel
(`int()` also accepts signs and surrounding whitespace, which never occur
in port specifications; the embedding covers nonnegative digit strings).
-/

/-- Python `s.split(sep)` for a single-character separator. -/
def splitOnChar (sep : Char) : List Char → List (List Char)
  | [] => [[]]
  | c :: cs =>
    let rest := splitOnChar sep cs
    if c = sep then [] :: rest
    else
      match rest with
      | r :: rs => (c :: r) :: rs
      | [] => [[c]]

/-- String-level wrapper for `splitOnChar`. -/
def pySplit (sep : Char) (s : String) : List String :=
  (splitOnChar sep s.data).map String.mk

/-- Numeric value of a digit string. -/
def digitsToNat (cs : List Char) : Nat :=
  cs.foldl (fun acc c => acc * 10 + (c.toNat - 48)) 0

/-- Python `int(s)` on a nonnegative digit string; `none` models the
`ValueError` raised on anything else. -/
def parseNatPy (s : String) : Option Nat :=
  if s.data ≠ [] ∧ s.data.all Char.isDigit then some (digitsToNat s.data)
  else none

/-- Python `s[-4:]`. -/
def lastFour (s : String) : List Char :=
  s.data.drop (s.data.length - 4)

/-- A port value as found in the YAML configuration: an integer or a
string (the `type(spec)` dispatch of `_parse_ports`). -/
inductive PortVal where
  | int (n : Nat)
  | str (s : String)
deriving DecidableEq, Repr

/-- The `external` entry of a fully specified port mapping: either a bare
value (then bound on all interfaces) or an `[ip, port]` pair. -/
inductive ExternalVal where
  | single (v : PortVal)
  | pair (ip : String) (v : PortVal)
deriving DecidableEq, Repr

/-- A port specification: integer, mapping string, or
`exposed`/`external` dictionary. -/
inductive PortSpec where
  | int (n : Nat)
  | str (s : String)
  | dict (exposed : PortVal) (external : ExternalVal)
deriving DecidableEq, Repr

/-- Failure modes of port parsing: an `InvalidPortSpecException`, or an
uncaught `ValueError` escaping from `int()` in the one-part branch of
`validate_proto` (exceptions.py is not among the sources; the error names
are modelled from the spec's error taxonomy). -/
inductive PortErr where
  | invalidSpec
  | valueError
deriving DecidableEq, Repr

/-- Embeds `validate_proto` (entities.py lines 390-404): a bare number is
normalized to `<n>/tcp`; a `<port>/<proto>` string with a numeric port and
a `tcp` or `udp` protocol is returned unchanged; everything else raises
(`ValueError` propagates uncaught from the one-part branch). -/
def validate_proto : PortVal → Except PortErr String
  | .int n => .ok (toString n ++ "/tcp")
  | .str s =>
    match pySplit '/' s with
    | [p] =>
      match parseNatPy p with
      | some n => .ok (toString n ++ "/tcp")
      | none => .error .valueError
    | [p, proto] =>
      match parseNatPy p with
      | some _ =>
        if proto = "tcp" ∨ proto = "udp" then .ok s
        else .error .invalidSpec
      | none => .error .invalidSpec
    | _ => .error .invalidSpec

/-- One entry of the parsed ports dictionary. -/
structure PortMapping where
  exposed : String
  external : String × String
deriving DecidableEq, Repr

/-- Left-to-right validation of the `:`-separated parts of a string port
spec (`list(map(validate_proto, spec.split(':')))`). -/
def validateAll : List String → Except PortErr (List String)
  | [] => .ok []
  | p :: ps =>
    match validate_proto (.str p), validateAll ps with
    | .ok v, .ok vs => .ok (v :: vs)
    | .error er, _ => .error er
    | _, .error er => .error er

/-- Embeds the per-spec body of `Container._parse_ports` (entities.py
lines 406-458). -/
def parsePortSpec : PortSpec → Except PortErr PortMapping
  | .int n =>
    match validate_proto (.int n), validate_proto (.int n) with
    | .ok v1, .ok v2 => .ok ⟨v1, ("0.0.0.0", v2)⟩
    | .error er, _ => .error er
    | _, .error er => .error er
  | .str s =>
    match validateAll (pySplit ':' s) with
    | .error er => .error er
    | .ok parts =>
      match parts with
      | [p] =>
        if lastFour p ≠ lastFour p then .error .invalidSpec
        else .ok ⟨p, ("0.0.0.0", p)⟩
      | [p1, p2] =>
        if lastFour p1 ≠ lastFour p2 then .error .invalidSpec
        else .ok ⟨p1, ("0.0.0.0", p2)⟩
      | _ => .error .invalidSpec
  | .dict ev xv =>
    match validate_proto ev with
    | .error er => .error er
    | .ok expv =>
      match xv with
      | .single v =>
        match validate_proto v with
        | .error er => .error er
        | .ok xval => .ok ⟨expv, ("0.0.0.0", xval)⟩
      | .pair ip v =>
        match validate_proto v with
        | .error er => .error er
        | .ok xval => .ok ⟨expv, (ip, xval)⟩

/-- Embeds `Container._parse_ports` over the whole named-ports mapping. -/
def parse_ports : List (String × PortSpec) →
    Except PortErr (List (String × PortMapping))
  | [] => .ok []
  | (name, spec) :: rest =>
    match parsePortSpec spec, parse_ports rest with
    | .ok m, .ok ms => .ok ((name, m) :: ms)
    | .error er, _ => .error er
    | _, .error er => .error er

/-- C5: an integer port spec `N` parses to exposed `N/tcp` bound
externally on all interfaces; a two-sided string spec `A:B` parses to
exposed `A` and external `("0.0.0.0", B)` (both sides normalized by
`validate_proto`) when the two sides carry the same protocol suffix, and
raises `InvalidPortSpecException` when the protocols differ. -/
theorem port_spec_parsing :
    (∀ n : Nat, parsePortSpec (.int n) =
      .ok ⟨toString n ++ "/tcp", ("0.0.0.0", toString n ++ "/tcp")⟩) ∧
    (∀ s A B a b : String, pySplit ':' s = [A, B] →
      validate_proto (.str A) = .ok a → validate_proto (.str B) = .ok b →
      (lastFour a = lastFour b →
        parsePortSpec (.str s) = .ok ⟨a, ("0.0.0.0", b)⟩) ∧
      (lastFour a ≠ lastFour b →
        parsePortSpec (.str s) = .error .invalidSpec)) := by
  constructor
  · intro n
    simp [parsePortSpec, validate_proto]
  · intro s A B a b hsplit hva hvb
    have hparts : validateAll (pySplit ':' s) = .ok [a, b] := by
      rw [hsplit]
      simp [validateAll, hva, hvb]
    constructor
    · intro hmatch
      simp only [parsePortSpec, hparts]
      rw [if_neg (by simpa using hmatch)]
    · intro hmismatch
      simp only [parsePortSpec, hparts]
      rw [if_pos (by simpa using hmismatch)]

theorem port_spec_parsing_witness :
    pySplit ':' "80:8080" = ["80", "8080"] ∧
    validate_proto (.str "80") = .ok "80/tcp" ∧
    validate_proto (.str "8080") = .ok "8080/tcp" ∧
    pySplit ':' "53/udp:53" = ["53/udp", "53"] ∧
    validate_proto (.str "53/udp") = .ok "53/udp" ∧
    validate_proto (.str "53") = .ok "53/tcp" ∧
    parsePortSpec (.int 80) =
      .ok ⟨"80/tcp", ("0.0.0.0", "80/tcp")⟩ ∧
    parsePortSpec (.str "80:8080") = .ok ⟨"80/tcp", ("0.0.0.0", "8080/tcp")⟩ ∧
    parsePortSpec (.str "53/udp:53") = .error .invalidSpec := by
  refine ⟨by decide, by rfl, by rfl, by decide, by rfl, by rfl,
    ?_, ?_, ?_⟩
  · have h := port_spec_parsing.1 80
    simpa using h
  · have h := (port_spec_parsing.2 "80:8080" "80" "8080" "80/tcp" "8080/tcp"
      (by decide) (by rfl) (by rfl)).1 (by decide)
    exact h
  · exact (port_spec_parsing.2 "53/udp:53" "53/udp" "53" "53/udp" "53/tcp"
      (by decide) (by rfl) (by rfl)).2 (by decide)

/-! ## Image details (entities.py lines 156-164, claim C7) -/

/-- Split a character list at the LAST occurrence of a separator:
`some (before, after)`, or `none` when the separator does not occur.
Implements Python `s.rsplit(sep, 1)`. -/
def breakLast (sep : Char) : List Char → Option (List Char × List Char)
  | [] => none
  | c :: cs =>
    match breakLast sep cs with
    | some (b, a) => some (c :: b, a)
    | none => if c = sep then some ([], cs) else none

/-- Python `s.rsplit(sep, 1)`. -/
def rsplit1 (sep : Char) (s : String) : List String :=
  match breakLast sep s.data with
  | some (b, a) => [String.mk b, String.mk a]
  | none => [s]

/-- The dictionary returned by `Service.get_image_details`. -/
structure ImageDetails where
  repository : String
  tag : String
deriving DecidableEq, Repr

/-- Embeds `Service.get_image_details`: rsplit on the last `:`; when
there was a split and the suffix contains a `/`, the whole image string is
the repository; the tag defaults to `latest` (also when the suffix is the
empty, hence falsy, string). -/
def get_image_details (image : String) : ImageDetails :=
  match rsplit1 ':' image with
  | [p0, p1] =>
    if p1.data.contains '/' then ⟨image, "latest"⟩
    else ⟨p0, if p1 = "" then "latest" else p1⟩
  | _ => ⟨image, "latest"⟩

theorem breakLast_of_not_mem (sep : Char) :
    ∀ (l : List Char), ¬ (sep ∈ l) → breakLast sep l = none := by
  intro l
  induction l with
  | nil => intro _; rfl
  | cons c cs ih =>
    intro h
    have hc : ¬ (c = sep) := fun heq => h (heq ▸ List.mem_cons_self _ _)
    have hcs : ¬ (sep ∈ cs) := fun hm => h (List.mem_cons_of_mem _ hm)
    simp only [breakLast, ih hcs]
    rw [if_neg hc]

theorem breakLast_append (sep : Char) :
    ∀ (A B : List Char), ¬ (sep ∈ B) →
      breakLast sep (A ++ sep :: B) = some (A, B) := by
  intro A
  induction A with
  | nil =>
    intro B hB
    simp only [List.nil_append, breakLast, breakLast_of_not_mem sep B hB]
    simp
  | cons a as ih =>
    intro B hB
    simp only [List.cons_append, breakLast, List.append_eq, ih B hB]

/-- C7: `get_image_details` splits the image string at the final `:` into
repository and tag exactly when the suffix after that `:` contains no `/`;
when the suffix contains a `/`, or the string has no `:` at all, the whole
string is the repository and the tag defaults to `latest`. -/
theorem image_details_split :
    (∀ image : String, ¬ (':' ∈ image.data) →
      get_image_details image = ⟨image, "latest"⟩) ∧
    (∀ A B : String, ¬ (':' ∈ B.data) →
      ('/' ∈ B.data →
        get_image_details (A ++ ":" ++ B) = ⟨A ++ ":" ++ B, "latest"⟩) ∧
      (¬ ('/' ∈ B.data) →
        get_image_details (A ++ ":" ++ B) =
          ⟨A, if B = "" then "latest" else B⟩)) := by
  constructor
  · intro image h
    unfold get_image_details rsplit1
    rw [breakLast_of_not_mem ':' image.data h]
  · intro A B hB
    have hdata : (A ++ ":" ++ B).data = A.data ++ ':' :: B.data := by
      simp [String.data_append]
    have hsplit : rsplit1 ':' (A ++ ":" ++ B) = [A, B] := by
      unfold rsplit1
      rw [hdata, breakLast_append ':' A.data B.data hB]
    constructor
    · intro hslash
      unfold get_image_details
      rw [hsplit]
      dsimp only
      rw [if_pos (by simpa using hslash)]
    · intro hslash
      unfold get_image_details
      rw [hsplit]
      dsimp only
      rw [if_neg (by simpa using hslash)]

theorem image_details_split_witness :
    (¬ (':' ∈ "stackbrew/ubuntu".data)) ∧
    get_image_details "stackbrew/ubuntu" = ⟨"stackbrew/ubuntu", "latest"⟩ ∧
    get_image_details "stackbrew/ubuntu:13.10" =
      ⟨"stackbrew/ubuntu", "13.10"⟩ ∧
    get_image_details "quay.io:8081/foo/bar" =
      ⟨"quay.io:8081/foo/bar", "latest"⟩ := by
  refine ⟨by decide, ?_, ?_, ?_⟩
  · exact image_details_split.1 "stackbrew/ubuntu" (by decide)
  · have h := (image_details_split.2 "stackbrew/ubuntu" "13.10"
      (by decide)).2 (by decide)
    simpa using h
  · have h := (image_details_split.2 "quay.io" "8081/foo/bar"
      (by decide)).1 (by decide)
    simpa using h

/-! ## Memory limits (entities.py lines 290-299, claim C8) -/

/-- A configured limit value: a number or a string. -/
inductive LimitVal where
  | int (n : Nat)
  | str (s : String)
deriving DecidableEq, Repr

/-- Byte multiplier of a limit suffix (`units` in the source). -/
def unitOf : Char → Nat
  | 'k' => 1024
  | 'm' => 1024 * 1024
  | 'g' => 1024 * 1024 * 1024
  | _ => 1

/-- Embeds the `mem_limit` normalization in `Container.__init__`: a
string limit with a (lowercased) `k`/`m`/`g` suffix becomes
`int(s[:-1]) * unit`; a string with any other suffix is left as the
string; non-string values pass through.  The outer `none` models the
uncaught `IndexError` (empty string) or `ValueError` (non-numeric prefix)
escaping from the constructor. -/
def parse_mem_limit : Option LimitVal → Option (Option LimitVal)
  | Option.none => some Option.none
  | some (.int n) => some (some (.int n))
  | some (.str s) =>
    match s.data.getLast? with
    | Option.none => Option.none
    | some c =>
      let suffix := c.toLower
      if suffix = 'k' ∨ suffix = 'm' ∨ suffix = 'g' then
        match parseNatPy (String.mk s.data.dropLast) with
        | Option.none => Option.none
        | some n => some (some (.int (n * unitOf suffix)))
      else some (some (.str s))

/-- C8 (memory half): a memory limit string of digits followed by `k`,
`m` or `g` is scaled by 1024, 1024² or 1024³ respectively; in particular
`"2g"` yields 2147483648 bytes. -/
theorem mem_limit_scaling :
    (∀ (s : String) (n : Nat), parseNatPy s = some n →
      parse_mem_limit (some (.str (String.mk (s.data ++ ['k'])))) =
        some (some (.int (n * 1024))) ∧
      parse_mem_limit (some (.str (String.mk (s.data ++ ['m'])))) =
        some (some (.int (n * (1024 * 1024)))) ∧
      parse_mem_limit (some (.str (String.mk (s.data ++ ['g'])))) =
        some (some (.int (n * (1024 * 1024 * 1024))))) ∧
    parse_mem_limit (some (.str "2g")) = some (some (.int 2147483648)) := by
  constructor
  · intro s n hn
    refine ⟨?_, ?_, ?_⟩
    all_goals
      simp only [parse_mem_limit, List.getLast?_concat, List.dropLast_concat]
      rw [if_pos (by decide)]
      rw [show String.mk s.data = s from rfl, hn]
      rfl
  · decide

theorem mem_limit_scaling_witness :
    parseNatPy "42" = some 42 ∧
    parse_mem_limit (some (.str "42k")) = some (some (.int 43008)) ∧
    parse_mem_limit (some (.str "2g")) = some (some (.int 2147483648)) := by
  refine ⟨by decide, ?_, mem_limit_scaling.2⟩
  have h := (mem_limit_scaling.1 "42" 42 (by decide)).1
  simpa using h

/-! ## Link variables (entities.py lines 218-229 and 341-362, claim C6)

Python dictionaries are embedded as insertion-ordered association lists:
assignment to an existing key replaces the value in place, assignment to a
fresh key appends.
-/

/-- Python dict assignment `m[k] = v`. -/
def dset (m : List (String × String)) (k v : String) : List (String × String) :=
  if m.any (fun p => p.1 == k) then
    m.map (fun p => if p.1 == k then (k, v) else p)
  else m ++ [(k, v)]

/-- Python dict lookup `m[k]`. -/
def dget (m : List (String × String)) (k : String) : Option String :=
  (m.find? (fun p => p.1 == k)).map Prod.snd

/-- Embeds `_to_env_var_name` (entities.py lines 348-349):
`re.sub(r'[^\w]', '_', n).upper()`, with word characters being ASCII
alphanumerics and the underscore. -/
def toEnvVarName (n : String) : String :=
  String.mk (n.data.map (fun c =>
    if c.isAlphanum || c = '_' then c.toUpper else '_'))

/-- Embeds the `port_number` lambda (entities.py line 352):
`p.split('/')[0]`. -/
def port_number (p : String) : String :=
  (pySplit '/' p).headD ""

/-- The aspects of a `Container` used by `get_link_variables`. -/
structure ContainerLV where
  name : String
  shipIp : String
  ports : List (String × PortMapping)
deriving DecidableEq, Repr

/-- Body of the loop of `Container.get_link_variables`, named so the
theorems can speak about the fold. -/
def clvStep (basename : String) (add_internal : Bool)
    (links : List (String × String)) (pr : String × PortMapping) :
    List (String × String) :=
  let links2 := dset links (basename ++ "_" ++ toEnvVarName pr.1 ++ "_PORT")
    (port_number pr.2.external.2)
  if add_internal then
    dset links2 (basename ++ "_" ++ toEnvVarName pr.1 ++ "_INTERNAL_PORT")
      (port_number pr.2.exposed)
  else links2

/-- Embeds `Container.get_link_variables`. -/
def container_link_variables (c : ContainerLV) (add_internal : Bool) :
    List (String × String) :=
  let basename := toEnvVarName c.name
  c.ports.foldl (clvStep basename add_internal)
    [(basename ++ "_HOST", c.shipIp)]

/-- The aspects of a `Service` used by `get_link_variables`. -/
structure ServiceLV where
  name : String
  containers : List ContainerLV
deriving DecidableEq, Repr

/-- Python `','.join(l)`. -/
def joinComma : List String → String
  | [] => ""
  | [x] => x
  | x :: xs => x ++ "," ++ joinComma xs

/-- Embeds `Service.get_link_variables`. -/
def service_link_variables (s : ServiceLV) (add_internal : Bool) :
    List (String × String) :=
  let basename := toEnvVarName s.name
  let links := s.containers.foldl
    (fun links c =>
      (container_link_variables c add_internal).foldl
        (fun links kv => dset links (basename ++ "_" ++ kv.1) kv.2) links)
    []
  dset links (basename ++ "_INSTANCES")
    (joinComma (s.containers.map ContainerLV.name))

/-- The claim's description of a container's link variables, transcribed
for comparison with the source embedding: the `_HOST` entry followed, per
named port, by the `_PORT` entry and (when internal variables are
requested) the `_INTERNAL_PORT` entry. -/
def portEntriesLV (basename : String) (add_internal : Bool)
    (pr : String × PortMapping) : List (String × String) :=
  (basename ++ "_" ++ toEnvVarName pr.1 ++ "_PORT",
    port_number pr.2.external.2) ::
  (if add_internal then
    [(basename ++ "_" ++ toEnvVarName pr.1 ++ "_INTERNAL_PORT",
      port_number pr.2.exposed)]
  else [])

/-- Claim-shaped container link-variable list. -/
def specContainerLV (c : ContainerLV) (add_internal : Bool) :
    List (String × String) :=
  (toEnvVarName c.name ++ "_HOST", c.shipIp) ::
    c.ports.flatMap (portEntriesLV (toEnvVarName c.name) add_internal)

/-- Claim-shaped service link-variable list: each container entry
prefixed with the service basename, then the `_INSTANCES` entry. -/
def specServiceLV (s : ServiceLV) (add_internal : Bool) :
    List (String × String) :=
  s.containers.flatMap (fun c =>
    (container_link_variables c add_internal).map
      (fun kv => (toEnvVarName s.name ++ "_" ++ kv.1, kv.2))) ++
  [(toEnvVarName s.name ++ "_INSTANCES",
    joinComma (s.containers.map ContainerLV.name))]

theorem dset_fresh (m : List (String × String)) (k v : String)
    (h : ∀ p ∈ m, p.1 ≠ k) : dset m k v = m ++ [(k, v)] := by
  unfold dset
  rw [if_neg]
  intro hany
  rcases List.any_eq_true.mp hany with ⟨p, hp, hpk⟩
  exact h p hp (by simpa using hpk)

theorem fresh_of_nodup_append {acc rest : List (String × String)} {k : String}
    (hnd : ((acc ++ rest).map Prod.fst).Nodup) (hk : k ∈ rest.map Prod.fst) :
    ∀ p ∈ acc, p.1 ≠ k := by
  rw [List.map_append, List.nodup_append] at hnd
  intro p hp heq
  exact hnd.2.2 (List.mem_map.mpr ⟨p, hp, heq⟩) (heq ▸ hk)

theorem dset_foldl_append :
    ∀ (kvs acc : List (String × String)),
      ((acc ++ kvs).map Prod.fst).Nodup →
      kvs.foldl (fun m kv => dset m kv.1 kv.2) acc = acc ++ kvs := by
  intro kvs
  induction kvs with
  | nil => intro acc _; simp
  | cons kv kvs ih =>
    intro acc hnd
    simp only [List.foldl_cons]
    have hfresh : ∀ p ∈ acc, p.1 ≠ kv.1 :=
      fresh_of_nodup_append hnd
        (List.mem_map.mpr ⟨kv, List.mem_cons_self _ _, rfl⟩)
    rw [dset_fresh acc kv.1 kv.2 hfresh]
    have hnd' : (((acc ++ [kv]) ++ kvs).map Prod.fst).Nodup := by
      rwa [List.append_assoc, List.singleton_append]
    rw [ih (acc ++ [kv]) hnd', List.append_assoc, List.singleton_append]

theorem clv_fold (basename : String) (ai : Bool) :
    ∀ (ports : List (String × PortMapping)) (acc : List (String × String)),
      ((acc ++ ports.flatMap (portEntriesLV basename ai)).map Prod.fst).Nodup →
      ports.foldl (clvStep basename ai) acc =
        acc ++ ports.flatMap (portEntriesLV basename ai) := by
  intro ports
  induction ports with
  | nil => intro acc _; simp
  | cons pr rest ih =>
    intro acc hnd
    rw [List.flatMap_cons] at hnd ⊢
    simp only [List.foldl_cons]
    have hstep : clvStep basename ai acc pr = acc ++ portEntriesLV basename ai pr := by
      have hk1 : ∀ p ∈ acc, p.1 ≠ basename ++ "_" ++ toEnvVarName pr.1 ++ "_PORT" := by
        apply fresh_of_nodup_append hnd
        rw [List.map_append]
        apply List.mem_append.mpr (Or.inl _)
        unfold portEntriesLV
        exact List.mem_map.mpr ⟨_, List.mem_cons_self _ _, rfl⟩
      cases ai with
      | false =>
        unfold clvStep portEntriesLV
        simp only [Bool.false_eq_true, if_false]
        rw [dset_fresh _ _ _ hk1]
      | true =>
        unfold clvStep portEntriesLV
        simp only [if_true]
        rw [dset_fresh _ _ _ hk1]
        have hk2 : ∀ p ∈ acc ++ [(basename ++ "_" ++ toEnvVarName pr.1 ++ "_PORT",
            port_number pr.2.external.2)],
            p.1 ≠ basename ++ "_" ++ toEnvVarName pr.1 ++ "_INTERNAL_PORT" := by
          have hmem : basename ++ "_" ++ toEnvVarName pr.1 ++ "_INTERNAL_PORT" ∈
              (portEntriesLV basename true pr).map Prod.fst := by
            unfold portEntriesLV
            simp
          intro p hp
          rcases List.mem_append.mp hp with h | h
          · refine fresh_of_nodup_append hnd ?_ p h
            rw [List.map_append]
            exact List.mem_append.mpr (Or.inl hmem)
          · have hpe : p = (basename ++ "_" ++ toEnvVarName pr.1 ++ "_PORT",
                port_number pr.2.external.2) := by simpa using h
            rw [hpe]
            intro heq
            have h2 := congrArg String.length heq
            simp only [String.length_append] at h2
            have h5 : ("_PORT" : String).length = 5 := by decide
            have h14 : ("_INTERNAL_PORT" : String).length = 14 := by decide
            rw [h5, h14] at h2
            omega
        rw [dset_fresh _ _ _ hk2, List.append_assoc]
        rfl
    rw [hstep]
    have hnd' : (((acc ++ portEntriesLV basename ai pr) ++
        rest.flatMap (portEntriesLV basename ai)).map Prod.fst).Nodup := by
      rwa [List.append_assoc]
    rw [ih _ hnd', List.append_assoc]

theorem slv_fold (basename : String) (ai : Bool) :
    ∀ (ctrs : List ContainerLV) (acc : List (String × String)),
      ((acc ++ ctrs.flatMap (fun c => (container_link_variables c ai).map
          (fun kv => (basename ++ "_" ++ kv.1, kv.2)))).map Prod.fst).Nodup →
      ctrs.foldl (fun links c =>
          (container_link_variables c ai).foldl
            (fun links kv => dset links (basename ++ "_" ++ kv.1) kv.2) links)
        acc =
        acc ++ ctrs.flatMap (fun c => (container_link_variables c ai).map
          (fun kv => (basename ++ "_" ++ kv.1, kv.2))) := by
  intro ctrs
  induction ctrs with
  | nil => intro acc _; simp
  | cons c rest ih =>
    intro acc hnd
    rw [List.flatMap_cons] at hnd ⊢
    simp only [List.foldl_cons]
    have hndpre : ((acc ++ (container_link_variables c ai).map
        (fun kv => (basename ++ "_" ++ kv.1, kv.2))).map Prod.fst).Nodup := by
      apply List.Nodup.sublist _ hnd
      apply List.Sublist.map
      rw [← List.append_assoc]
      exact List.sublist_append_left _ _
    have hinner : (container_link_variables c ai).foldl
        (fun links kv => dset links (basename ++ "_" ++ kv.1) kv.2) acc =
        acc ++ (container_link_variables c ai).map
          (fun kv => (basename ++ "_" ++ kv.1, kv.2)) := by
      rw [← List.foldl_map
        (fun kv : String × String => (basename ++ "_" ++ kv.1, kv.2))
        (fun (m : List (String × String)) (kv : String × String) =>
          dset m kv.1 kv.2)]
      exact dset_foldl_append _ acc hndpre
    rw [hinner]
    rw [ih (acc ++ (container_link_variables c ai).map
        (fun kv : String × String => (basename ++ "_" ++ kv.1, kv.2)))
      (by rwa [List.append_assoc])]
    rw [List.append_assoc]

/-- C6: the link-variable dictionaries have exactly the claimed shape.
For a container: `BASENAME_HOST` maps to the ship's ip and, per named
port, `BASENAME_PORTNAME_PORT` maps to the external port number (plus
`..._INTERNAL_PORT` mapping to the exposed port number when internal
variables are requested).  For a service: each container entry prefixed
with the service basename (uppercased, non-word characters replaced by
underscores), plus `SERVICEBASENAME_INSTANCES` mapping to the
comma-joined container names in insertion order.  The hypothesis asks the
generated variable names not to collide, which dict overwriting would
otherwise resolve by last-write-wins. -/
theorem link_variables_correct :
    (∀ (c : ContainerLV) (ai : Bool),
      ((specContainerLV c ai).map Prod.fst).Nodup →
      container_link_variables c ai = specContainerLV c ai) ∧
    (∀ (s : ServiceLV) (ai : Bool),
      ((specServiceLV s ai).map Prod.fst).Nodup →
      service_link_variables s ai = specServiceLV s ai) := by
  constructor
  · intro c ai hnd
    unfold container_link_variables
    exact clv_fold (toEnvVarName c.name) ai c.ports
      [(toEnvVarName c.name ++ "_HOST", c.shipIp)] hnd
  · intro s ai hnd
    unfold service_link_variables
    dsimp only
    have hnd2 : ((([] : List (String × String)) ++
        s.containers.flatMap (fun c => (container_link_variables c ai).map
          (fun kv => (toEnvVarName s.name ++ "_" ++ kv.1, kv.2)))).map
            Prod.fst).Nodup := by
      apply List.Nodup.sublist _ hnd
      apply List.Sublist.map
      rw [List.nil_append]
      exact List.sublist_append_left _ _
    rw [slv_fold (toEnvVarName s.name) ai s.containers [] hnd2]
    rw [List.nil_append]
    have hfresh : ∀ p ∈ s.containers.flatMap
        (fun c => (container_link_variables c ai).map
          (fun kv => (toEnvVarName s.name ++ "_" ++ kv.1, kv.2))),
        p.1 ≠ toEnvVarName s.name ++ "_INSTANCES" := by
      apply fresh_of_nodup_append hnd
      simp
    rw [dset_fresh _ _ _ hfresh]
    rfl

theorem link_variables_correct_witness :
    ((specContainerLV ⟨"c", "10.0.0.1",
        [("http", ⟨"80/tcp", ("0.0.0.0", "80/tcp")⟩)]⟩ true).map
          Prod.fst).Nodup ∧
    container_link_variables
        ⟨"c", "10.0.0.1", [("http", ⟨"80/tcp", ("0.0.0.0", "80/tcp")⟩)]⟩ true =
      specContainerLV
        ⟨"c", "10.0.0.1", [("http", ⟨"80/tcp", ("0.0.0.0", "80/tcp")⟩)]⟩ true ∧
    specContainerLV
        ⟨"c", "10.0.0.1", [("http", ⟨"80/tcp", ("0.0.0.0", "80/tcp")⟩)]⟩ true =
      [("C_HOST", "10.0.0.1"), ("C_HTTP_PORT", "80"),
        ("C_HTTP_INTERNAL_PORT", "80")] ∧
    service_link_variables
        ⟨"svc", [⟨"c", "10.0.0.1",
          [("http", ⟨"80/tcp", ("0.0.0.0", "80/tcp")⟩)]⟩]⟩ false =
      [("SVC_C_HOST", "10.0.0.1"), ("SVC_C_HTTP_PORT", "80"),
        ("SVC_INSTANCES", "c")] := by
  refine ⟨by decide, ?_, by decide, ?_⟩
  · exact link_variables_correct.1
      ⟨"c", "10.0.0.1", [("http", ⟨"80/tcp", ("0.0.0.0", "80/tcp")⟩)]⟩ true
      (by decide)
  · have h := link_variables_correct.2
      ⟨"svc", [⟨"c", "10.0.0.1",
        [("http", ⟨"80/tcp", ("0.0.0.0", "80/tcp")⟩)]⟩]⟩ false (by decide)
    rw [h]
    decide

/-! ## Container identity and name expansion (claim C10)

Containers compare, hash, and order by name alone (`Container.__lt__`,
`__eq__`, `__hash__`, entities.py lines 475-482); `_to_containers`
(maestro.py lines 136-149) expands names and returns `sorted(set(...))`
of the resulting container objects.
-/

/-- A container object with all identity-irrelevant fields kept. -/
structure ContainerObj where
  name : String
  ship : String
  service : String
deriving DecidableEq, Repr

/-- Embeds `Container.__eq__`: equality by name only. -/
def containerEq (a b : ContainerObj) : Bool := a.name == b.name

/-- Embeds `Container.__lt__`: ordering by name only. -/
def containerLt (a b : ContainerObj) : Bool := strLtB a.name b.name

/-- Embeds `Container.__hash__`: `hash(self.name)`. -/
def containerHashKey (a : ContainerObj) : UInt64 := hash a.name

/-- The Conductor's name-keyed dictionaries, at the object level. -/
structure CondEnv where
  containers : List (String × ContainerObj)
  services : List (String × List ContainerObj)

/-- The `Service.containers` property: instances sorted by name. -/
def serviceContainersObj (l : List ContainerObj) : List ContainerObj :=
  sortLe (fun a b => strLeB a.name b.name) l

/-- Expansion of one name in `_to_containers`. -/
def expandThingObj (env : CondEnv) (t : String) : Option (List ContainerObj) :=
  match env.containers.find? (fun p => p.1 == t) with
  | some p => some [p.2]
  | none =>
    match env.services.find? (fun p => p.1 == t) with
    | some p => some (serviceContainersObj p.2)
    | none => none

/-- Concatenated expansion of all the names (`result` in the source). -/
def expandAllObjs (env : CondEnv) : List String → Option (List ContainerObj)
  | [] => some []
  | t :: ts =>
    match expandThingObj env t, expandAllObjs env ts with
    | some l, some ls => some (l ++ ls)
    | _, _ => none

/-- Python `sorted(set(result))` on container objects: deduplication by
name (hash and eq are name-only, the set keeps the first occurrence) and
sorting by `__lt__`. -/
def pySortedSet (l : List ContainerObj) : List ContainerObj :=
  sortLe (fun a b => !(containerLt b a)) (dedupFirst (fun c => c.name) l [])

/-- Embeds `Conductor._to_containers` at the object level. -/
def toContainerObjs (env : CondEnv) (things : List String) :
    Option (List ContainerObj) :=
  match expandAllObjs env things with
  | some l => some (pySortedSet l)
  | none => none

/-! ### Order lemmas for the code-point lexicographic order -/

theorem char_toNat_inj {a b : Char} (h : a.toNat = b.toNat) : a = b :=
  Char.ext (UInt32.ext h)

theorem lexLt_cons_iff (x y : Char) (xs ys : List Char) :
    lexLt (x :: xs) (y :: ys) = true ↔
      x.toNat < y.toNat ∨ (x.toNat = y.toNat ∧ lexLt xs ys = true) := by
  simp only [lexLt]
  by_cases h1 : x.toNat < y.toNat
  · simp [h1]
  · by_cases h2 : x.toNat = y.toNat
    · simp [h1, h2]
    · simp [h1, h2]

theorem lexLt_trans :
    ∀ (a b c : List Char), lexLt a b = true → lexLt b c = true →
      lexLt a c = true := by
  intro a
  induction a with
  | nil =>
    intro b c hab hbc
    rcases b with _ | ⟨y, ys⟩
    · cases hab
    · rcases c with _ | ⟨z, zs⟩
      · cases hbc
      · rfl
  | cons x xs ih =>
    intro b c hab hbc
    rcases b with _ | ⟨y, ys⟩
    · cases hab
    · rcases c with _ | ⟨z, zs⟩
      · cases hbc
      · rw [lexLt_cons_iff] at hab hbc ⊢
        rcases hab with h1 | ⟨h1, h1t⟩
        · rcases hbc with h2 | ⟨h2, h2t⟩
          · exact Or.inl (by omega)
          · exact Or.inl (by omega)
        · rcases hbc with h2 | ⟨h2, h2t⟩
          · exact Or.inl (by omega)
          · exact Or.inr ⟨by omega, ih ys zs h1t h2t⟩

theorem lexLt_connex :
    ∀ (a b : List Char), lexLt a b = false → lexLt b a = false → a = b := by
  intro a
  induction a with
  | nil =>
    intro b hab _
    rcases b with _ | ⟨x, xs⟩
    · rfl
    · cases hab
  | cons x xs ih =>
    intro b hab hba
    rcases b with _ | ⟨y, ys⟩
    · cases hba
    · have hab2 : ¬ (x.toNat < y.toNat ∨
          (x.toNat = y.toNat ∧ lexLt xs ys = true)) := by
        intro h
        rw [(lexLt_cons_iff x y xs ys).mpr h] at hab
        cases hab
      have hba2 : ¬ (y.toNat < x.toNat ∨
          (y.toNat = x.toNat ∧ lexLt ys xs = true)) := by
        intro h
        rw [(lexLt_cons_iff y x ys xs).mpr h] at hba
        cases hba
      push_neg at hab2 hba2
      obtain ⟨ha1, ha2⟩ := hab2
      obtain ⟨hb1, hb2⟩ := hba2
      have hxy : x.toNat = y.toNat := by omega
      have hxs : lexLt xs ys = false := by
        cases hxs : lexLt xs ys with
        | false => rfl
        | true => exact absurd hxs (ha2 hxy)
      have hys : lexLt ys xs = false := by
        cases hys : lexLt ys xs with
        | false => rfl
        | true => exact absurd hys (hb2 hxy.symm)
      rw [char_toNat_inj hxy, ih ys hxs hys]

theorem mem_insertLe {α : Type} (le : α → α → Bool) (a x : α) (l : List α) :
    x ∈ insertLe le a l ↔ x = a ∨ x ∈ l := by
  rw [(insertLe_perm le a l).mem_iff]
  exact List.mem_cons

theorem pairwise_insertLe {α : Type} (le : α → α → Bool)
    (htrans : ∀ a b c, le a b = true → le b c = true → le a c = true)
    (htot : ∀ a b, le a b = true ∨ le b a = true) (a : α) :
    ∀ l, List.Pairwise (fun x y => le x y = true) l →
      List.Pairwise (fun x y => le x y = true) (insertLe le a l) := by
  intro l
  induction l with
  | nil => intro _; simp [insertLe]
  | cons b bs ih =>
    intro hp
    rcases List.pairwise_cons.mp hp with ⟨hb, hbs⟩
    simp only [insertLe]
    by_cases hab : le a b = true
    · rw [if_pos hab]
      refine List.pairwise_cons.mpr ⟨?_, hp⟩
      intro x hx
      rcases List.mem_cons.mp hx with rfl | hx
      · exact hab
      · exact htrans a b x hab (hb x hx)
    · rw [if_neg hab]
      refine List.pairwise_cons.mpr ⟨?_, ih hbs⟩
      intro x hx
      rcases (mem_insertLe le a x bs).mp hx with hxa | hx
      · rcases htot a b with h | h
        · exact absurd h hab
        · rw [hxa]
          exact h
      · exact hb x hx

theorem pairwise_sortLe {α : Type} (le : α → α → Bool)
    (htrans : ∀ a b c, le a b = true → le b c = true → le a c = true)
    (htot : ∀ a b, le a b = true ∨ le b a = true) :
    ∀ l : List α, List.Pairwise (fun x y => le x y = true) (sortLe le l) := by
  intro l
  induction l with
  | nil => simp [sortLe]
  | cons a as ih =>
    simp only [sortLe, List.foldr_cons]
    exact pairwise_insertLe le htrans htot a _ ih

theorem lexLt_irrefl : ∀ l : List Char, lexLt l l = false := by
  intro l
  induction l with
  | nil => rfl
  | cons x xs ih =>
    simp only [lexLt]
    rw [if_neg (by omega)]
    simpa using ih

theorem lexLe_trans (a b c : List Char) (h1 : lexLt b a = false)
    (h2 : lexLt c b = false) : lexLt c a = false := by
  cases hca : lexLt c a with
  | false => rfl
  | true =>
    exfalso
    cases hab : lexLt a b with
    | true =>
      rw [lexLt_trans c a b hca hab] at h2
      cases h2
    | false =>
      have heq : a = b := lexLt_connex a b hab h1
      rw [heq] at hca
      rw [hca] at h2
      cases h2

theorem lexLe_total (a b : List Char) :
    lexLt b a = false ∨ lexLt a b = false := by
  cases hab : lexLt a b with
  | false => exact Or.inr rfl
  | true =>
    cases hba : lexLt b a with
    | false => exact Or.inl rfl
    | true =>
      exfalso
      have := lexLt_trans a b a hab hba
      rw [lexLt_irrefl] at this
      cases this

/-- C10: container identity is name-only (equal names compare equal and
hash equal regardless of ship and service; ordering compares names), and
`_to_containers` deduplicates purely by name and returns the container
objects sorted strictly by name, with exactly the names of the raw
expansion. -/
theorem container_identity_name_only :
    (∀ a b : ContainerObj, a.name = b.name →
      containerEq a b = true ∧ containerHashKey a = containerHashKey b) ∧
    (∀ a b : ContainerObj, containerEq a b = true → a.name = b.name) ∧
    (∀ a b : ContainerObj, containerLt a b = strLtB a.name b.name) ∧
    (∀ (env : CondEnv) (things : List String) (out : List ContainerObj),
      toContainerObjs env things = some out →
      List.Pairwise (fun x y : ContainerObj => strLtB x.name y.name = true)
        out ∧
      ∃ raw, expandAllObjs env things = some raw ∧
        ∀ n : String, (n ∈ out.map ContainerObj.name ↔
          n ∈ raw.map ContainerObj.name)) := by
  refine ⟨?_, ?_, ?_, ?_⟩
  · intro a b h
    refine ⟨by simp [containerEq, h], ?_⟩
    unfold containerHashKey
    rw [h]
  · intro a b h
    simpa [containerEq] using h
  · intro a b
    rfl
  · intro env things out hout
    unfold toContainerObjs at hout
    rcases hraw : expandAllObjs env things with _ | raw
    · rw [hraw] at hout; cases hout
    · rw [hraw] at hout
      simp only [Option.some.injEq] at hout
      subst hout
      have htrans : ∀ x y z : ContainerObj,
          (!(containerLt y x)) = true → (!(containerLt z y)) = true →
          (!(containerLt z x)) = true := by
        intro x y z h1 h2
        simp only [containerLt, strLtB, Bool.not_eq_true'] at h1 h2 ⊢
        exact lexLe_trans _ _ _ h1 h2
      have htot : ∀ x y : ContainerObj,
          (!(containerLt y x)) = true ∨ (!(containerLt x y)) = true := by
        intro x y
        simp only [containerLt, strLtB, Bool.not_eq_true']
        exact lexLe_total _ _
      have hple : List.Pairwise
          (fun x y : ContainerObj => (!(containerLt y x)) = true)
          (pySortedSet raw) :=
        pairwise_sortLe _ htrans htot _
      have hnames : ((pySortedSet raw).map ContainerObj.name).Nodup := by
        unfold pySortedSet
        have hperm := (sortLe_perm (fun a b : ContainerObj => !(containerLt b a))
          (dedupFirst (fun c => c.name) raw [])).map ContainerObj.name
        exact hperm.nodup_iff.mpr
          (nodup_dedupFirst (fun c : ContainerObj => c.name) raw []).1
      constructor
      · have hpne : List.Pairwise
            (fun x y : ContainerObj => x.name ≠ y.name) (pySortedSet raw) :=
          List.pairwise_map.mp hnames
        refine (hple.and hpne).imp ?_
        rintro x y ⟨h1, h2⟩
        simp only [containerLt, strLtB, Bool.not_eq_true'] at h1
        cases hxy : lexLt x.name.data y.name.data with
        | true => exact hxy
        | false =>
          exfalso
          have hdata := lexLt_connex _ _ hxy h1
          have hname : x.name = y.name := congrArg String.mk hdata
          exact h2 hname
      · refine ⟨raw, rfl, ?_⟩
        intro n
        unfold pySortedSet
        rw [List.Perm.mem_iff ((sortLe_perm _ _).map ContainerObj.name)]
        constructor
        · intro h
          rcases List.mem_map.mp h with ⟨y, hy, rfl⟩
          exact List.mem_map.mpr
            ⟨y, mem_dedupFirst (fun c : ContainerObj => c.name) raw [] y hy, rfl⟩
        · intro h
          rcases List.mem_map.mp h with ⟨x, hx, rfl⟩
          rcases mem_dedupFirst_of_mem (fun c : ContainerObj => c.name) raw []
            x hx (by simp) with ⟨y, hy1, hy2⟩
          exact List.mem_map.mpr ⟨y, hy1, hy2⟩

theorem container_identity_name_only_witness :
    containerEq ⟨"x", "ship1", "svcA"⟩ ⟨"x", "ship2", "svcB"⟩ = true ∧
    containerHashKey ⟨"x", "ship1", "svcA"⟩ =
      containerHashKey ⟨"x", "ship2", "svcB"⟩ ∧
    toContainerObjs
      ⟨[("b1", ⟨"b1", "s1", "b"⟩), ("a1", ⟨"a1", "s1", "a"⟩)], []⟩
      ["b1", "a1", "b1"] =
      some [⟨"a1", "s1", "a"⟩, ⟨"b1", "s1", "b"⟩] ∧
    List.Pairwise (fun x y : ContainerObj => strLtB x.name y.name = true)
      [⟨"a1", "s1", "a"⟩, ⟨"b1", "s1", "b"⟩] := by
  refine ⟨(container_identity_name_only.1 _ _ rfl).1,
    (container_identity_name_only.1 _ _ rfl).2, by decide, ?_⟩
  have h := (container_identity_name_only.2.2.2
    ⟨[("b1", ⟨"b1", "s1", "b"⟩), ("a1", ⟨"a1", "s1", "a"⟩)], []⟩
    ["b1", "a1", "b1"] [⟨"a1", "s1", "a"⟩, ⟨"b1", "s1", "b"⟩] (by decide)).1
  exact h

/-! ## The Stop and Start plays (src/maestro/plays.py, claims C3 and C4)

The Docker daemon interaction is embedded as a trace of operations; the
values the daemon returns (inspect results, readiness probes) are oracle
inputs to the per-container step functions.
-/

/-- A call issued to the per-ship Docker backend. -/
inductive DockerOp where
  | inspect (name : String)
  | stop (id : String) (timeout : Option Nat)
  | remove (id : String)
  | pull (repository : String)
  | create (name : String)
  | start (id : String)
deriving DecidableEq, Repr

/-- The container state reported by the daemon. -/
structure CStatus where
  id : String
  running : Bool
deriving DecidableEq, Repr

/-- Outcome of `container.status(refresh=True)`: the inspect call can
raise (host down), return nothing (no such container), or return a
status. -/
inductive InspectOutcome where
  | raised
  | returned (st : Option CStatus)
deriving DecidableEq, Repr

/-- The fields of `Container` that `Stop.run` touches; `stop_timeout`
is parsed in `Container.__init__` (entities.py line 287, default 10). -/
structure StopCtrInfo where
  name : String
  stop_timeout : Nat
deriving DecidableEq, Repr

/-- Embeds the per-container body of `Stop.run` (plays.py lines
301-328): inspect with refresh; if the inspect raised, report `down`
("host down"); if there is no container or it is not running, report
`already down`; otherwise issue `backend.stop(container.id)` — with no
timeout argument — and report `stopped` (or `fail!` when the stop call
itself raises, which does not change the issued call).  Returns the
status label and the trace of Docker calls. -/
def stop_play_step (c : StopCtrInfo) (ins : InspectOutcome)
    (stopRaises : Bool) : String × List DockerOp :=
  match ins with
  | .raised => ("down", [DockerOp.inspect c.name])
  | .returned Option.none => ("already down", [DockerOp.inspect c.name])
  | .returned (some st) =>
    if !st.running then ("already down", [DockerOp.inspect c.name])
    else
      ((if stopRaises then "fail!" else "stopped"),
        [DockerOp.inspect c.name, DockerOp.stop st.id Option.none])

/-- C3 counterexample: for a running container with `stop_timeout = 42`,
the Stop play issues the stop call with the container's id and no timeout
argument; the call `stop(id, 42)` the claim describes is not issued. -/
theorem stop_play_no_timeout_counterexample :
    (stop_play_step ⟨"c1", 42⟩ (.returned (some ⟨"abcdef0", true⟩)) false).2 =
      [DockerOp.inspect "c1", DockerOp.stop "abcdef0" Option.none] ∧
    DockerOp.stop "abcdef0" (some 42) ∉
      (stop_play_step ⟨"c1", 42⟩
        (.returned (some ⟨"abcdef0", true⟩)) false).2 := by
  decide

/-- C3 as amended: the Stop play inspects the container's status first;
when the status is absent or not running it reports `already down` and
issues no stop call; when running it calls the Docker stop operation with
the container's id and NO timeout argument (`container.stop_timeout` is
never consulted); in no case does it remove the container. -/
theorem stop_play_step_spec (c : StopCtrInfo) (ins : InspectOutcome)
    (sr : Bool) :
    (stop_play_step c ins sr).2.head? = some (DockerOp.inspect c.name) ∧
    ((ins = .returned Option.none ∨
        (∃ st, ins = .returned (some st) ∧ st.running = false)) →
      (stop_play_step c ins sr).1 = "already down" ∧
      ∀ i t, DockerOp.stop i t ∉ (stop_play_step c ins sr).2) ∧
    (∀ st, ins = .returned (some st) → st.running = true →
      (stop_play_step c ins sr).2 =
        [DockerOp.inspect c.name, DockerOp.stop st.id Option.none]) ∧
    (∀ i, DockerOp.remove i ∉ (stop_play_step c ins sr).2) := by
  refine ⟨?_, ?_, ?_, ?_⟩
  · rcases ins with _ | ⟨_ | st⟩
    · rfl
    · rfl
    · rcases hs : st.running with _ | _ <;> simp [stop_play_step, hs]
  · rintro (rfl | ⟨st, rfl, hst⟩)
    · exact ⟨rfl, by intro i t h; simp [stop_play_step] at h⟩
    · refine ⟨?_, ?_⟩
      · simp [stop_play_step, hst]
      · intro i t h
        simp [stop_play_step, hst] at h
  · rintro st rfl hst
    simp [stop_play_step, hst]
  · intro i h
    rcases ins with _ | ⟨_ | st⟩
    · simp [stop_play_step] at h
    · simp [stop_play_step] at h
    · rcases hr : st.running with _ | _ <;> simp [stop_play_step, hr] at h

theorem stop_play_step_spec_witness :
    ((InspectOutcome.returned (some ⟨"abc", false⟩) =
        InspectOutcome.returned Option.none ∨
      (∃ st, InspectOutcome.returned (some ⟨"abc", false⟩) =
        InspectOutcome.returned (some st) ∧ st.running = false))) ∧
    (stop_play_step ⟨"c1", 10⟩
      (.returned (some ⟨"abc", false⟩)) false).1 = "already down" ∧
    (stop_play_step ⟨"c1", 10⟩
      (.returned (some ⟨"abc", true⟩)) false).2 =
      [DockerOp.inspect "c1", DockerOp.stop "abc" Option.none] := by
  have hdown : (InspectOutcome.returned (some ⟨"abc", false⟩) =
      InspectOutcome.returned Option.none ∨
    (∃ st, InspectOutcome.returned (some (⟨"abc", false⟩ : CStatus)) =
      InspectOutcome.returned (some st) ∧ st.running = false)) :=
    Or.inr ⟨⟨"abc", false⟩, rfl, rfl⟩
  refine ⟨hdown, ?_, ?_⟩
  · exact ((stop_play_step_spec ⟨"c1", 10⟩
      (.returned (some ⟨"abc", false⟩)) false).2.1 hdown).1
  · exact (stop_play_step_spec ⟨"c1", 10⟩
      (.returned (some ⟨"abc", true⟩)) false).2.2.1 ⟨"abc", true⟩ rfl rfl

/-- The fields of a `Container` that `Start._start_container` consults. -/
structure StartCtrInfo where
  name : String
  repository : String
  tag : String
deriving DecidableEq, Repr

/-- Oracle inputs to `Start._start_container`.

Modelled from the spec: the `pingAlready` and `pingFinal` fields stand
for `container.ping(retries=...)`, the application readiness probe, which
`plays.py` calls but which is not defined in `src/maestro/entities.py`
(the spec describes it as "if readiness probe already passes, mark the
container already up and return without action").  The remaining fields
are the values the Docker daemon returns along the start path. -/
structure StartOracle where
  pingAlready : Bool
  existingId : Option String
  imageTagPresent : Bool
  refreshImages : Bool
  createdOk : Bool
  createdId : String
  runningAfterStart : Bool
  pingFinal : Bool
deriving DecidableEq, Repr

/-- Result of `_start_container`: `None` (already running and ready),
`True` (started and became ready), `False` (started but the service did
not come up), or an `OrchestrationException`. -/
inductive StartResult where
  | alreadyUp
  | started
  | notStarted
  | raisedError (stage : String)
deriving DecidableEq, Repr

/-- Embeds `Start._start_container` (plays.py lines 212-287): if the
readiness probe already passes, return `None` with no Docker mutation;
otherwise remove any existing container of the same name, pull the image
if requested or missing, create and start the container, wait for it to
run, and ping the application. -/
def start_container_step (c : StartCtrInfo) (o : StartOracle) :
    StartResult × List DockerOp :=
  if o.pingAlready then (.alreadyUp, [])
  else
    let ops1 :=
      match o.existingId with
      | some i => [DockerOp.remove i]
      | Option.none => []
    let ops2 :=
      if o.refreshImages || !o.imageTagPresent then
        [DockerOp.pull c.repository]
      else []
    let ops3 := [DockerOp.create c.name]
    if !o.createdOk then (.raisedError "creation", ops1 ++ ops2 ++ ops3)
    else
      let ops4 := [DockerOp.start o.createdId]
      if !o.runningAfterStart then
        (.raisedError "initialization", ops1 ++ ops2 ++ ops3 ++ ops4)
      else
        ((if o.pingFinal then .started else .notStarted),
          ops1 ++ ops2 ++ ops3 ++ ops4)

/-- Embeds the status labelling of `Start.run` (plays.py lines 150-153):
`result is None` commits `up`, `True` commits `started`, `False` commits
`service did not start!`. -/
def start_run_label : StartResult → String
  | .alreadyUp => "up"
  | .started => "started"
  | .notStarted => "service did not start!"
  | .raisedError _ => "failed to start container!"

/-- C4: starting a container whose readiness probe already passes issues
no Docker call at all — in particular no remove, pull, create or start —
and the play labels the container `up`; hence a second Start run on a
successfully started, ready container leaves the daemon state
unchanged. -/
theorem start_already_up_no_mutation (c : StartCtrInfo) (o : StartOracle)
    (h : o.pingAlready = true) :
    (start_container_step c o).2 = [] ∧
    (start_container_step c o).1 = StartResult.alreadyUp ∧
    start_run_label (start_container_step c o).1 = "up" := by
  simp [start_container_step, h, start_run_label]

theorem start_already_up_no_mutation_witness :
    (StartOracle.mk true (some "oldid") false true true "newid" true true
      |>.pingAlready) = true ∧
    (start_container_step ⟨"c1", "repo/img", "latest"⟩
      (StartOracle.mk true (some "oldid") false true true "newid" true
        true)).2 = [] ∧
    start_run_label
      (start_container_step ⟨"c1", "repo/img", "latest"⟩
        (StartOracle.mk true (some "oldid") false true true "newid" true
          true)).1 = "up" := by
  have h := start_already_up_no_mutation ⟨"c1", "repo/img", "latest"⟩
    (StartOracle.mk true (some "oldid") false true true "newid" true true)
    rfl
  exact ⟨rfl, h.1, h.2.2⟩
